import Mathlib

/-!
# Verification of the `bee_code` Bencode codec

This file is a shallow embedding of `src/lib.rs` of the `bee_code`
repository: a Bencode decoder (`Bencode::parse`, a cursor-based
recursive-descent parser) and encoder (`Bencode::serialize`).

Modelling conventions:

* Bytes are `Nat` (the source works on `u8`; all byte literals that the
  parser compares against are below 256, and no arithmetic overflows a
  byte, so `Nat` is a faithful superset model).
* The cursor-based `Parser { pos, input }` becomes explicit
  `(input : List Nat) (pos : Nat)` arguments; every operation returns the
  new position on success.
* Fallible Rust code returns `Result`; Rust panics (the `unwrap` in
  `Parser::next`/`Parser::consume`, the `expect` calls on
  `str::parse`, the out-of-bounds index `input[pos + 1]` in
  `consume_expected`'s error message, and `i64` overflow of `int * sign`
  with overflow checks enabled) are modelled by a distinguished `panic`
  result.
* `BTreeMap<Vec<u8>, Bencode>` becomes an association list kept in strictly
  ascending lexicographic key order by its insert operation, matching the
  map's iteration order.
* The mutually recursive descent is given explicit fuel; `nofuel` is an
  artefact of the embedding.  `Bencode.parse` supplies
  `3 * input.length + 3` fuel, which is proved sufficient on every input:
  the `nofuel` outcome is unreachable (`parse_ne_nofuel`).
* `format!` messages are reproduced verbatim, including the rendering of
  `std::str::Utf8Error` (`utf8ErrStr`).
-/

set_option maxHeartbeats 1000000

/-- The error type of the source (`BencodeError`), message strings included. -/
inductive BencodeError where
  | NegativeLen : String → BencodeError
  | Unexpected : String → BencodeError
  | Utf8Error : String → BencodeError
deriving DecidableEq

/-- The four-variant value model of the source (`enum Bencode`).  `Dict`'s
`BTreeMap` is modelled as an association list in ascending key order. -/
inductive Bencode where
  | Bytes : List Nat → Bencode
  | Integer : Int → Bencode
  | List : List Bencode → Bencode
  | Dict : List (List Nat × Bencode) → Bencode

/-- Outcome of one parser operation: success (with the new cursor
position), a `BencodeError`, a Rust panic, or fuel exhaustion (an artefact
of the embedding, never reached with the fuel `Bencode.parse` supplies). -/
inductive PRes (α : Type) where
  | ok : α → Nat → PRes α
  | err : BencodeError → PRes α
  | panic : PRes α
  | nofuel : PRes α

/-- Outcome of the public entry point `Bencode::parse` (the parser and its
final position are dropped, as in the source). -/
inductive DecodeResult where
  | ok : Bencode → DecodeResult
  | err : BencodeError → DecodeResult
  | panic : DecodeResult
  | nofuel : DecodeResult

/-- Strict lexicographic order on byte strings: the `Ord` instance of
`Vec<u8>` that `BTreeMap` sorts by (element-wise, a strict prefix is
smaller). -/
def lexLt : List Nat → List Nat → Bool
  | [], [] => false
  | [], _ :: _ => true
  | _ :: _, [] => false
  | a :: as, b :: bs => if a < b then true else if a = b then lexLt as bs else false

/-- Model of `BTreeMap::insert` on the sorted-association-list: replaces the
value when the key is already present, otherwise inserts at the unique
position that keeps keys strictly ascending. -/
def insertSorted : List (List Nat × Bencode) → List Nat → Bencode → List (List Nat × Bencode)
  | [], k, v => [(k, v)]
  | (k', v') :: rest, k, v =>
    if lexLt k k' then (k, v) :: (k', v') :: rest
    else if k = k' then (k, v) :: rest
    else (k', v') :: insertSorted rest k v

/-- Model of `BTreeMap::get` on the association-list. -/
def lookupKey : List (List Nat × Bencode) → List Nat → Option Bencode
  | [], _ => none
  | (k', v') :: rest, k => if k' = k then some v' else lookupKey rest k

/-- Adjacent keys strictly ascending: the invariant `BTreeMap` maintains
and iterates in. -/
def keysSorted : List (List Nat × Bencode) → Bool
  | [] => true
  | [_] => true
  | a :: b :: rest => lexLt a.1 b.1 && keysSorted (b :: rest)

/-- Recursion core of `natDigits`; the first argument is fuel bounding the
recursion depth (any fuel above the argument gives the same digits, see
`natDigitsAux_congr`). -/
def natDigitsAux : Nat → Nat → List Nat
  | 0, _ => []
  | fuel + 1, n =>
    if n < 10 then [48 + n] else natDigitsAux fuel (n / 10) ++ [48 + n % 10]

/-- Decimal ASCII digits of a natural number, most significant first
(the `Display` rendering used by `format!("{}", n)`). -/
def natDigits (n : Nat) : List Nat := natDigitsAux (n + 1) n

/-- Rendering of `format!("{}", num)` for `num : i64`: a `-` sign followed by the
digits of the magnitude, or just the digits. -/
def serializeInt (n : Int) : List Nat :=
  if n < 0 then 45 :: natDigits n.natAbs else natDigits n.toNat

/-- Model of `Bencode::serialize_bytes`: decimal length, `:` (58), then the raw
bytes. -/
def serializeBytes (bytes : List Nat) : List Nat :=
  natDigits bytes.length ++ 58 :: bytes

mutual
/-- Model of `Bencode::serialize`: `i<digits>e` for integers, `l…e` for lists,
`d…e` for dicts (entries in the map's ascending key order), and
`<len>:<bytes>` for byte strings. -/
def Bencode.serialize : Bencode → List Nat
  | .Integer num => 105 :: (serializeInt num ++ [101])
  | .List list => 108 :: (serializeList list ++ [101])
  | .Dict dict => 100 :: (serializeDict dict ++ [101])
  | .Bytes bytes => serializeBytes bytes
  termination_by structural v => v

/-- The `for item in list { temp.extend(item.serialize()) }` loop of the
`List` arm. -/
def serializeList : List Bencode → List Nat
  | [] => []
  | x :: xs => Bencode.serialize x ++ serializeList xs
  termination_by structural l => l

/-- The `for (key, value) in dict` loop of the `Dict` arm: serialized key
immediately followed by the serialized value, in iteration order. -/
def serializeDict : List (List Nat × Bencode) → List Nat
  | [] => []
  | (k, v) :: xs => serializeBytes k ++ Bencode.serialize v ++ serializeDict xs
  termination_by structural d => d
end

/-- Model of `Parser::consume`: read the byte under the cursor and advance; the
`unwrap` panics at end of input. -/
def consume (input : List Nat) (pos : Nat) : PRes Nat :=
  match input[pos]? with
  | some c => .ok c (pos + 1)
  | none => .panic

/-- Model of `Parser::consume_while`: the `while !self.eof() && test(self.next())
{ res.push(self.consume()) }` loop collects the longest prefix of the
bytes from the cursor on which the predicate holds and advances the
cursor past it — i.e. `takeWhile` on the remaining input. -/
def consumeWhile (test : Nat → Bool) (input : List Nat) (pos : Nat) : List Nat × Nat :=
  let res := (input.drop pos).takeWhile test
  (res, pos + res.length)

/-- Model of `Parser::consume_expected`: `next()` (panics at end of input), then
either `consume` the matching byte or build an `Unexpected` error whose
message indexes `input[pos + 1]` (panicking when that is out of bounds). -/
def consumeExpected (input : List Nat) (pos : Nat) (expected : Nat) : PRes Nat :=
  match input[pos]? with
  | none => .panic
  | some c =>
    if c = expected then .ok c (pos + 1)
    else
      match input[pos + 1]? with
      | none => .panic
      | some d =>
        .err (.Unexpected
          s!"Unexpected character at index {pos}. Expected {expected} found {d}")

/-- Is `c` a UTF-8 continuation byte (`0x80..=0xBF`)? -/
def utf8Cont (c : Nat) : Bool := 128 ≤ c && c ≤ 191

/-- Validation of `std::str::from_utf8` (the algorithm of
`core::str::run_utf8_validation`): `none` when the bytes are valid UTF-8,
otherwise `some (valid_up_to, error_len)` exactly as carried by
`std::str::Utf8Error`. -/
def utf8Validate : List Nat → Nat → Option (Nat × Option Nat)
  | [], _ => none
  | b :: rest, i =>
    if b < 128 then utf8Validate rest (i + 1)
    else if 194 ≤ b && b ≤ 223 then
      match rest with
      | [] => some (i, none)
      | c1 :: r =>
        if utf8Cont c1 then utf8Validate r (i + 2) else some (i, some 1)
    else if b = 224 then
      match rest with
      | [] => some (i, none)
      | c1 :: r =>
        if 160 ≤ c1 && c1 ≤ 191 then
          match r with
          | [] => some (i, none)
          | c2 :: r2 =>
            if utf8Cont c2 then utf8Validate r2 (i + 3) else some (i, some 2)
        else some (i, some 1)
    else if (225 ≤ b && b ≤ 236) || b = 238 || b = 239 then
      match rest with
      | [] => some (i, none)
      | c1 :: r =>
        if utf8Cont c1 then
          match r with
          | [] => some (i, none)
          | c2 :: r2 =>
            if utf8Cont c2 then utf8Validate r2 (i + 3) else some (i, some 2)
        else some (i, some 1)
    else if b = 237 then
      match rest with
      | [] => some (i, none)
      | c1 :: r =>
        if 128 ≤ c1 && c1 ≤ 159 then
          match r with
          | [] => some (i, none)
          | c2 :: r2 =>
            if utf8Cont c2 then utf8Validate r2 (i + 3) else some (i, some 2)
        else some (i, some 1)
    else if b = 240 then
      match rest with
      | [] => some (i, none)
      | c1 :: r =>
        if 144 ≤ c1 && c1 ≤ 191 then
          match r with
          | [] => some (i, none)
          | c2 :: r2 =>
            if utf8Cont c2 then
              match r2 with
              | [] => some (i, none)
              | c3 :: r3 =>
                if utf8Cont c3 then utf8Validate r3 (i + 4) else some (i, some 3)
            else some (i, some 2)
        else some (i, some 1)
    else if 241 ≤ b && b ≤ 243 then
      match rest with
      | [] => some (i, none)
      | c1 :: r =>
        if utf8Cont c1 then
          match r with
          | [] => some (i, none)
          | c2 :: r2 =>
            if utf8Cont c2 then
              match r2 with
              | [] => some (i, none)
              | c3 :: r3 =>
                if utf8Cont c3 then utf8Validate r3 (i + 4) else some (i, some 3)
            else some (i, some 2)
        else some (i, some 1)
    else if b = 244 then
      match rest with
      | [] => some (i, none)
      | c1 :: r =>
        if 128 ≤ c1 && c1 ≤ 143 then
          match r with
          | [] => some (i, none)
          | c2 :: r2 =>
            if utf8Cont c2 then
              match r2 with
              | [] => some (i, none)
              | c3 :: r3 =>
                if utf8Cont c3 then utf8Validate r3 (i + 4) else some (i, some 3)
            else some (i, some 2)
        else some (i, some 1)
    else some (i, some 1)

/-- The `Display` rendering of `std::str::Utf8Error`, interpolated into the
source's `Utf8Error` messages via `format!("… {}", e)`. -/
def utf8ErrStr : Nat × Option Nat → String
  | (v, some l) => s!"invalid utf-8 sequence of {l} bytes from index {v}"
  | (v, none) => s!"incomplete utf-8 byte sequence from index {v}"

/-- Value of a run of ASCII decimal digit bytes, or `none` if the run is
empty or contains a non-digit (the digit-accumulation core of
`str::parse` for integer types). -/
def digitsVal : List Nat → Option Nat
  | [] => none
  | ds =>
    if ds.all (fun d => 48 ≤ d && d ≤ 57) then
      some (ds.foldl (fun a d => a * 10 + (d - 48)) 0)
    else none

/-- Model of `str::parse::<usize>()` on the bytes of the string (64-bit target):
an optional `+` sign, a non-empty digit run, and a `< 2^64` range check. -/
def parseUsize (ds : List Nat) : Option Nat :=
  match ds with
  | [] => none
  | d :: rest =>
    if d = 43 then (digitsVal rest).bind fun n => if n < 2 ^ 64 then some n else none
    else (digitsVal (d :: rest)).bind fun n => if n < 2 ^ 64 then some n else none

/-- Model of `str::parse::<i64>()` on the bytes of the string: an optional `+` or
`-` sign, a non-empty digit run, and the `i64` range checks. -/
def parseI64 (ds : List Nat) : Option Int :=
  match ds with
  | [] => none
  | d :: rest =>
    if d = 43 then (digitsVal rest).bind fun n => if n ≤ 2 ^ 63 - 1 then some (n : Int) else none
    else if d = 45 then
      (digitsVal rest).bind fun n => if n ≤ 2 ^ 63 then some (-(n : Int)) else none
    else (digitsVal (d :: rest)).bind fun n => if n ≤ 2 ^ 63 - 1 then some (n : Int) else none

/-- Model of `Parser::parse_len`: reject a leading `-` (45) with `NegativeLen`,
collect bytes up to `:` (58), fail `Utf8Error` if they are not valid
UTF-8, and panic (`expect`) if the text is not a number. -/
def parseLen (input : List Nat) (pos : Nat) : PRes Nat :=
  match input[pos]? with
  | none => .panic
  | some c =>
    if c = 45 then .err (.NegativeLen s!"Negative string len at index {pos}")
    else
      let r := consumeWhile (fun b => b != 58) input pos
      match utf8Validate r.1 0 with
      | some e =>
        let p := r.2
        let es := utf8ErrStr e
        .err (.Utf8Error s!"Non UTF8 encoded string length at index {p}. {es}")
      | none =>
        match parseUsize r.1 with
        | none => .panic
        | some len => .ok len r.2

/-- The `for _ in 0..len { bytes.push(self.consume()) }` loop of
`Parser::parse_string`: each `consume` panics past the end of input. -/
def consumeN (input : List Nat) (pos : Nat) : Nat → PRes (List Nat)
  | 0 => .ok [] pos
  | n + 1 =>
    match input[pos]? with
    | none => .panic
    | some c =>
      match consumeN input (pos + 1) n with
      | .ok bs p => .ok (c :: bs) p
      | .err e => .err e
      | .panic => .panic
      | .nofuel => .nofuel

/-- Model of `Parser::parse_string`: parse the length, consume the `:` separator,
then consume exactly that many payload bytes. -/
def parseString (input : List Nat) (pos : Nat) : PRes (List Nat) :=
  match parseLen input pos with
  | .ok len p1 =>
    match consumeExpected input p1 58 with
    | .ok _ p2 => consumeN input p2 len
    | .err e => .err e
    | .panic => .panic
    | .nofuel => .nofuel
  | .err e => .err e
  | .panic => .panic
  | .nofuel => .nofuel

/-- The body of `Parser::parse_int` after the `i` and the optional sign:
collect the digit run up to `e` (101), apply the leading-zero and
negative-zero checks, decode the run (`Utf8Error` on invalid UTF-8, panic
on non-numeric text), consume the closing `e`, and return `int * sign`
(whose `i64` overflow — only `i64::MIN * -1` — panics). `pos` is the
position saved at the top of `parse_int`, used in the error messages. -/
def parseIntTail (input : List Nat) (pos : Nat) (sign : Int) (p : Nat) : PRes Bencode :=
  let r := consumeWhile (fun c => c != 101) input p
  let v := r.1
  if v.length > 1 ∧ v.headD 0 = 48 then
    .err (.Unexpected s!"Leading 0 while parsing integer at index {pos}")
  else if v.length = 1 ∧ v.headD 0 = 48 ∧ sign = -1 then
    .err (.Unexpected s!"Negative 0 while parsing integer at index {pos}")
  else
    match utf8Validate v 0 with
    | some e =>
      let es := utf8ErrStr e
      .err (.Utf8Error s!"Non UTF8 encoded integer value at index {pos}. {es}")
    | none =>
      match parseI64 v with
      | none => .panic
      | some int =>
        match consumeExpected input r.2 101 with
        | .ok _ p4 =>
          let res := int * sign
          if res < -(2 ^ 63) ∨ res > 2 ^ 63 - 1 then .panic
          else .ok (.Integer res) p4
        | .err e => .err e
        | .panic => .panic
        | .nofuel => .nofuel

/-- Model of `Parser::parse_int`: save the entry position, expect `i` (105), probe
for `-` (45) — a mismatch there is swallowed (`Err(_) => {}`) but the
panic in the probe's error-message construction is not — then the shared
tail. -/
def parseInt (input : List Nat) (pos : Nat) : PRes Bencode :=
  match consumeExpected input pos 105 with
  | .ok _ p1 =>
    match consumeExpected input p1 45 with
    | .ok _ p2 => parseIntTail input pos (-1) p2
    | .err _ => parseIntTail input pos 1 p1
    | .panic => .panic
    | .nofuel => .nofuel
  | .err e => .err e
  | .panic => .panic
  | .nofuel => .nofuel

mutual
/-- Model of `Parser::parse_element`: dispatch on the lookahead byte — `d` (100)
dict, `l` (108) list, `i` (105) integer, an ASCII digit byte string,
anything else an `Unexpected` error; `next()` panics at end of input. -/
def parseElement (input : List Nat) : Nat → Nat → PRes Bencode
  | 0, _ => .nofuel
  | fuel + 1, pos =>
    match input[pos]? with
    | none => .panic
    | some c =>
      if c = 100 then parseDict input fuel pos
      else if c = 108 then parseList input fuel pos
      else if c = 105 then parseInt input pos
      else if 48 ≤ c ∧ c ≤ 57 then
        match parseString input pos with
        | .ok bs p => .ok (.Bytes bs) p
        | .err e => .err e
        | .panic => .panic
        | .nofuel => .nofuel
      else .err (.Unexpected s!"Unexpected value type at index {pos}")
  termination_by structural fuel _p => fuel

/-- Model of `Parser::parse_dict`: expect `d` then run the key/value loop on an
empty map. -/
def parseDict (input : List Nat) : Nat → Nat → PRes Bencode
  | 0, _ => .nofuel
  | fuel + 1, pos =>
    match consumeExpected input pos 100 with
    | .ok _ p => dictLoop input fuel [] p
    | .err e => .err e
    | .panic => .panic
    | .nofuel => .nofuel
  termination_by structural fuel _p => fuel

/-- The `while self.next() != b'e'` loop of `parse_dict`: `next()` panics
at end of input; otherwise parse a byte-string key and an element value
and insert them (later duplicates overwrite), until `e` (101) is consumed. -/
def dictLoop (input : List Nat) : Nat → List (List Nat × Bencode) → Nat → PRes Bencode
  | 0, _, _ => .nofuel
  | fuel + 1, dict, pos =>
    match input[pos]? with
    | none => .panic
    | some c =>
      if c = 101 then
        match consumeExpected input pos 101 with
        | .ok _ p => .ok (.Dict dict) p
        | .err e => .err e
        | .panic => .panic
        | .nofuel => .nofuel
      else
        match parseString input pos with
        | .ok k p1 =>
          match parseElement input fuel p1 with
          | .ok v p2 => dictLoop input fuel (insertSorted dict k v) p2
          | .err e => .err e
          | .panic => .panic
          | .nofuel => .nofuel
        | .err e => .err e
        | .panic => .panic
        | .nofuel => .nofuel
  termination_by structural fuel _d _p => fuel

/-- Model of `Parser::parse_list`: expect `l` then run the element loop on an
empty vector. -/
def parseList (input : List Nat) : Nat → Nat → PRes Bencode
  | 0, _ => .nofuel
  | fuel + 1, pos =>
    match consumeExpected input pos 108 with
    | .ok _ p => listLoop input fuel [] p
    | .err e => .err e
    | .panic => .panic
    | .nofuel => .nofuel
  termination_by structural fuel _p => fuel

/-- The `while self.next() != b'e'` loop of `parse_list`: `next()` panics
at end of input; otherwise parse an element and push it, until `e` (101)
is consumed. -/
def listLoop (input : List Nat) : Nat → List Bencode → Nat → PRes Bencode
  | 0, _, _ => .nofuel
  | fuel + 1, list, pos =>
    match input[pos]? with
    | none => .panic
    | some c =>
      if c = 101 then
        match consumeExpected input pos 101 with
        | .ok _ p => .ok (.List list) p
        | .err e => .err e
        | .panic => .panic
        | .nofuel => .nofuel
      else
        match parseElement input fuel pos with
        | .ok v p1 => listLoop input fuel (list ++ [v]) p1
        | .err e => .err e
        | .panic => .panic
        | .nofuel => .nofuel
  termination_by structural fuel _l _p => fuel
end

/-- A byte buffer (`Vec<u8>` in the source). -/
abbrev ByteList := List Nat

/-- Model of `Bencode::parse`: run `Parser::decode` (= `parse_element`) from
position 0 and drop the parser.  The fuel `3 * input.length + 3` is
sufficient (see the `fuelFor` bound lemmas); `nofuel` is an artefact of
the embedding. -/
def Bencode.parse (source : ByteList) : DecodeResult :=
  match parseElement source (3 * source.length + 3) 0 with
  | .ok v _ => .ok v
  | .err e => .err e
  | .panic => .panic
  | .nofuel => .nofuel

/-- The bytes of an ASCII string literal, for writing concrete inputs the
way the source's tests write them (`b"…"`). -/
def strBytes (s : String) : List Nat := s.data.map Char.toNat

mutual
/-- The values the decoder can actually build: byte strings and dict keys
whose length fits `usize`, integers produced by `int * sign` (never
`i64::MIN`, which cannot survive the overflow of re-negating), and dicts
in strictly ascending key order.  Every successful `Bencode.parse` result
satisfies this (`parse_wf`), and every such value round-trips. -/
def WFb : Bencode → Bool
  | .Bytes b => decide (b.length < 2 ^ 64)
  | .Integer n => decide (-(2 ^ 63 - 1) ≤ n ∧ n ≤ 2 ^ 63 - 1)
  | .List l => WFl l
  | .Dict d => keysSorted d && WFd d
  termination_by structural v => v

/-- Predicate `WFb` on every element of a list. -/
def WFl : List Bencode → Bool
  | [] => true
  | x :: xs => WFb x && WFl xs
  termination_by structural l => l

/-- Predicate `WFb` on every value and the length bound on every key of a dict. -/
def WFd : List (List Nat × Bencode) → Bool
  | [] => true
  | (k, v) :: xs => decide (k.length < 2 ^ 64) && WFb v && WFd xs
  termination_by structural d => d
end

mutual
/-- Fuel sufficient for `parseElement` to parse the serialization of a
value (each recursive-descent call burns one unit). -/
def fuelFor : Bencode → Nat
  | .Bytes _ => 1
  | .Integer _ => 1
  | .List l => 2 + fuelL l
  | .Dict d => 2 + fuelD d
  termination_by structural v => v

/-- Fuel sufficient for `listLoop` over the serializations of `l`. -/
def fuelL : List Bencode → Nat
  | [] => 1
  | x :: xs => 1 + fuelFor x + fuelL xs
  termination_by structural l => l

/-- Fuel sufficient for `dictLoop` over the serializations of `d`. -/
def fuelD : List (List Nat × Bencode) → Nat
  | [] => 1
  | (_, v) :: xs => 1 + fuelFor v + fuelD xs
  termination_by structural d => d
end

/-- The value of the last entry with key `k` in input order, if any: the
value a left-to-right sequence of `BTreeMap::insert` calls retains. -/
def lastAssoc (pairs : List (List Nat × Bencode)) (k : List Nat) : Option Bencode :=
  pairs.foldl (fun acc e => if e.1 = k then some e.2 else acc) none

/-- How many entries of `pairs` carry the key `k`. -/
def countKey (pairs : List (List Nat × Bencode)) (k : List Nat) : Nat :=
  (pairs.filter (fun e => e.1 = k)).length

/-- A dict input assembled from an arbitrary (not necessarily sorted or
duplicate-free) sequence of key/value entries: `d`, each serialized key
immediately followed by its serialized value, `e`. -/
def dictInput (pairs : List (List Nat × Bencode)) : List Nat :=
  100 :: serializeDict pairs ++ [101]

/-- One `BTreeMap::insert` step, as folded over decoded dict entries. -/
def insEntry (m : List (List Nat × Bencode)) (e : List Nat × Bencode) :
    List (List Nat × Bencode) :=
  insertSorted m e.1 e.2

/-! ## Basic facts about positions and dropped suffixes -/

theorem getElem?_of_drop {input : List Nat} {pos : Nat} {c : Nat} {l : List Nat}
    (h : input.drop pos = c :: l) : input[pos]? = some c := by
  have := List.getElem?_drop input pos 0
  rw [h] at this
  simpa using this.symm

theorem drop_advance {input : List Nat} {pos : Nat} {a b : List Nat}
    (h : input.drop pos = a ++ b) : input.drop (pos + a.length) = b := by
  have h1 : input.drop (pos + a.length) = (input.drop pos).drop a.length := by
    rw [List.drop_drop]
  rw [h1, h, List.drop_left]

/-! ## Digits of `format!("{}", n)` -/

theorem natDigitsAux_congr : ∀ f g n, n < f → n < g → natDigitsAux f n = natDigitsAux g n := by
  intro f
  induction f with
  | zero => omega
  | succ f ih =>
    intro g n hf hg
    cases g with
    | zero => omega
    | succ g =>
      simp only [natDigitsAux]
      by_cases h10 : n < 10
      · simp [h10]
      · simp only [h10, if_false]
        have hlt : n / 10 < n := Nat.div_lt_self (by omega) (by omega)
        rw [ih g (n / 10) (by omega) (by omega)]

theorem natDigits_eq (n : Nat) :
    natDigits n = if n < 10 then [48 + n] else natDigits (n / 10) ++ [48 + n % 10] := by
  show natDigitsAux (n + 1) n = _
  simp only [natDigitsAux]
  by_cases h10 : n < 10
  · simp [h10]
  · simp only [h10, if_false]
    have hlt : n / 10 < n := Nat.div_lt_self (by omega) (by omega)
    rw [natDigitsAux_congr n (n / 10 + 1) (n / 10) (by omega) (by omega)]
    rfl

theorem natDigits_ne_nil (n : Nat) : natDigits n ≠ [] := by
  rw [natDigits_eq]
  by_cases h10 : n < 10
  · simp [h10]
  · simp [h10]

theorem natDigits_all_digit (n : Nat) : ∀ d ∈ natDigits n, 48 ≤ d ∧ d ≤ 57 := by
  induction n using Nat.strong_induction_on with
  | _ n ih =>
    rw [natDigits_eq]
    by_cases h10 : n < 10
    · simp only [h10, if_true, List.mem_singleton]
      omega
    · simp only [h10, if_false, List.mem_append, List.mem_singleton]
      intro d hd
      rcases hd with hd | hd
      · exact ih (n / 10) (Nat.div_lt_self (by omega) (by omega)) d hd
      · have := Nat.mod_lt n (show 0 < 10 by omega)
        omega

theorem natDigits_head?_eq_48 (n : Nat) (h : (natDigits n).head? = some 48) : n = 0 := by
  induction n using Nat.strong_induction_on with
  | _ n ih =>
    rw [natDigits_eq] at h
    by_cases h10 : n < 10
    · rw [if_pos h10] at h
      simp only [List.head?_cons, Option.some.injEq] at h
      omega
    · rw [if_neg h10, List.head?_append] at h
      rcases List.exists_cons_of_ne_nil (natDigits_ne_nil (n / 10)) with ⟨a, t, ha⟩
      rw [ha] at h
      simp only [List.head?_cons] at h
      rw [show (some a).or (some (48 + n % 10)) = some a from rfl] at h
      have ha48 : a = 48 := by injection h
      have := ih (n / 10) (Nat.div_lt_self (by omega) (by omega))
        (by rw [ha, ha48]; simp)
      omega

theorem natDigits_cons (n : Nat) :
    ∃ d t, natDigits n = d :: t ∧ 48 ≤ d ∧ d ≤ 57 := by
  rcases List.exists_cons_of_ne_nil (natDigits_ne_nil n) with ⟨d, t, h⟩
  refine ⟨d, t, h, natDigits_all_digit n d (by rw [h]; simp)⟩

/-- The digit-accumulation fold inverts `natDigits`. -/
theorem foldl_natDigits (n : Nat) :
    (natDigits n).foldl (fun a d => a * 10 + (d - 48)) 0 = n := by
  have key : ∀ m a, (natDigits m).foldl (fun a d => a * 10 + (d - 48)) a =
      a * 10 ^ (natDigits m).length + m := by
    intro m
    induction m using Nat.strong_induction_on with
    | _ m ih =>
      intro a
      rw [natDigits_eq]
      by_cases h10 : m < 10
      · simp only [h10, if_true, List.foldl_cons, List.foldl_nil, List.length_singleton,
          pow_one]
        omega
      · simp only [h10, if_false, List.foldl_append, List.length_append,
          List.foldl_cons, List.foldl_nil, List.length_singleton]
        rw [ih (m / 10) (Nat.div_lt_self (by omega) (by omega)) a]
        have hp : a * 10 ^ ((natDigits (m / 10)).length + 1) =
            a * 10 ^ (natDigits (m / 10)).length * 10 := by ring
        rw [hp]
        have h48 : 48 + m % 10 - 48 = m % 10 := by omega
        rw [h48]
        have := Nat.div_add_mod m 10
        omega
  have := key n 0
  simpa using this

theorem digitsVal_cons (d : Nat) (t : List Nat) :
    digitsVal (d :: t) =
      if (d :: t).all (fun d => 48 ≤ d && d ≤ 57) then
        some ((d :: t).foldl (fun a d => a * 10 + (d - 48)) 0)
      else none := rfl

theorem digitsVal_natDigits (n : Nat) : digitsVal (natDigits n) = some n := by
  rcases natDigits_cons n with ⟨d, t, hdt, hd1, hd2⟩
  have hall : (natDigits n).all (fun d => 48 ≤ d && d ≤ 57) = true := by
    rw [List.all_eq_true]
    intro x hx
    have := natDigits_all_digit n x hx
    simp only [Bool.and_eq_true, decide_eq_true_eq]
    omega
  rw [hdt] at hall ⊢
  rw [digitsVal_cons, if_pos hall, ← hdt, foldl_natDigits n]

theorem parseUsize_natDigits (n : Nat) (h : n < 2 ^ 64) :
    parseUsize (natDigits n) = some n := by
  rcases natDigits_cons n with ⟨d, t, hdt, hd1, hd2⟩
  have hv := digitsVal_natDigits n
  rw [hdt] at hv
  rw [hdt]
  simp only [parseUsize]
  rw [if_neg (by omega : ¬ d = 43), hv]
  show (if n < 2 ^ 64 then some n else none) = some n
  rw [if_pos h]

theorem parseI64_natDigits (n : Nat) (h : n ≤ 2 ^ 63 - 1) :
    parseI64 (natDigits n) = some (n : Int) := by
  rcases natDigits_cons n with ⟨d, t, hdt, hd1, hd2⟩
  have hv := digitsVal_natDigits n
  rw [hdt] at hv
  rw [hdt]
  simp only [parseI64]
  rw [if_neg (by omega : ¬ d = 43), if_neg (by omega : ¬ d = 45), hv]
  show (if n ≤ 2 ^ 63 - 1 then some ((n : Int)) else none) = some (n : Int)
  rw [if_pos h]

theorem parseI64_neg_natDigits (n : Nat) (h : n ≤ 2 ^ 63) :
    parseI64 (45 :: natDigits n) = some (-(n : Int)) := by
  have hv := digitsVal_natDigits n
  simp only [parseI64]
  rw [if_pos trivial, hv]
  show (if n ≤ 2 ^ 63 then some (-(n : Int)) else none) = some (-(n : Int))
  rw [if_pos h]

/-! ## Inversion facts for the numeric token decoders -/

theorem parseUsize_lt {ds : List Nat} {n : Nat} (h : parseUsize ds = some n) : n < 2 ^ 64 := by
  match ds with
  | [] => simp [parseUsize] at h
  | d :: rest =>
    simp only [parseUsize] at h
    split at h <;>
    · rcases hdv : digitsVal _ with _ | m
      · rw [hdv] at h
        simp at h
      · rw [hdv] at h
        simp only [Option.some_bind] at h
        split at h
        · rename_i hm
          cases h
          omega
        · cases h

theorem parseI64_bounds {ds : List Nat} {z : Int} (h : parseI64 ds = some z) :
    -(2 ^ 63) ≤ z ∧ z ≤ 2 ^ 63 - 1 := by
  match ds with
  | [] => simp [parseI64] at h
  | d :: rest =>
    simp only [parseI64] at h
    split at h
    · rcases hdv : digitsVal rest with _ | m
      · rw [hdv] at h; simp at h
      · rw [hdv] at h
        simp only [Option.some_bind] at h
        split at h
        · rename_i hm; cases h; constructor <;> omega
        · cases h
    · split at h
      · rcases hdv : digitsVal rest with _ | m
        · rw [hdv] at h; simp at h
        · rw [hdv] at h
          simp only [Option.some_bind] at h
          split at h
          · rename_i hm; cases h; constructor <;> omega
          · cases h
      · rcases hdv : digitsVal (d :: rest) with _ | m
        · rw [hdv] at h; simp at h
        · rw [hdv] at h
          simp only [Option.some_bind] at h
          split at h
          · rename_i hm; cases h; constructor <;> omega
          · cases h

theorem parseI64_neg_head {ds : List Nat} {z : Int} (h : parseI64 ds = some z) (hz : z < 0) :
    ∃ rest, ds = 45 :: rest := by
  match ds with
  | [] => simp [parseI64] at h
  | d :: rest =>
    simp only [parseI64] at h
    split at h
    · rcases hdv : digitsVal rest with _ | m
      · rw [hdv] at h; simp at h
      · rw [hdv] at h
        simp only [Option.some_bind] at h
        split at h
        · cases h; omega
        · cases h
    · split at h
      · rename_i hd45
        exact ⟨rest, by rw [hd45]⟩
      · rcases hdv : digitsVal (d :: rest) with _ | m
        · rw [hdv] at h; simp at h
        · rw [hdv] at h
          simp only [Option.some_bind] at h
          split at h
          · cases h; omega
          · cases h

/-! ## The scanning primitives on structured suffixes -/

theorem takeWhile_middle {test : Nat → Bool} :
    ∀ (xs : List Nat) (y : Nat) (ys : List Nat), (∀ x ∈ xs, test x = true) → test y = false →
      (xs ++ y :: ys).takeWhile test = xs := by
  intro xs
  induction xs with
  | nil =>
    intro y ys _ hy
    simp [List.takeWhile_cons, hy]
  | cons x xs ih =>
    intro y ys hall hy
    simp only [List.cons_append, List.takeWhile_cons]
    rw [hall x (by simp)]
    simp only [if_true]
    rw [ih y ys (fun a ha => hall a (by simp [ha])) hy]

theorem consumeWhile_eq_of {test : Nat → Bool} {input : List Nat} {pos : Nat}
    {xs : List Nat} {y : Nat} {ys : List Nat} (h : input.drop pos = xs ++ y :: ys)
    (hall : ∀ x ∈ xs, test x = true) (hy : test y = false) :
    consumeWhile test input pos = (xs, pos + xs.length) := by
  unfold consumeWhile
  rw [h, takeWhile_middle xs y ys hall hy]

theorem consumeN_eq_of {input : List Nat} {pos : Nat} {xs rest : List Nat}
    (h : input.drop pos = xs ++ rest) :
    consumeN input pos xs.length = .ok xs (pos + xs.length) := by
  induction xs generalizing pos with
  | nil => simp [consumeN]
  | cons x xs ih =>
    have hx : input[pos]? = some x := getElem?_of_drop (by simpa using h)
    have hd : input.drop (pos + 1) = xs ++ rest := by
      have := drop_advance (a := [x]) (b := xs ++ rest) (by simpa using h)
      simpa using this
    show consumeN input pos (xs.length + 1) = _
    simp only [consumeN, hx, ih hd, List.length_cons]
    simp only [PRes.ok.injEq, List.cons.injEq, true_and]
    omega

theorem consumeN_ok_inv {input : List Nat} {pos n : Nat} {bs : List Nat} {p : Nat}
    (h : consumeN input pos n = .ok bs p) : bs.length = n ∧ p = pos + n := by
  induction n generalizing pos bs with
  | zero =>
    simp only [consumeN] at h
    cases h
    simp
  | succ n ih =>
    rcases hx : input[pos]? with _ | c
    · simp only [consumeN, hx] at h
      cases h
    · simp only [consumeN, hx] at h
      cases hr : consumeN input (pos + 1) n with
      | ok bs' p' =>
        rw [hr] at h
        cases h
        have := ih hr
        simp only [List.length_cons]
        omega
      | err e => rw [hr] at h; cases h
      | panic => rw [hr] at h; cases h
      | nofuel => rw [hr] at h; cases h

theorem consumeExpected_ok {input : List Nat} {pos x : Nat} (h : input[pos]? = some x) :
    consumeExpected input pos x = .ok x (pos + 1) := by
  simp [consumeExpected, h]

theorem consumeExpected_mismatch {input : List Nat} {pos x c d : Nat}
    (hc : input[pos]? = some c) (hne : c ≠ x) (hd : input[pos + 1]? = some d) :
    consumeExpected input pos x =
      .err (.Unexpected s!"Unexpected character at index {pos}. Expected {x} found {d}") := by
  simp only [consumeExpected, hc]
  rw [if_neg hne]
  simp only [hd]

theorem consumeExpected_ok_inv {input : List Nat} {pos x y p : Nat}
    (h : consumeExpected input pos x = .ok y p) :
    input[pos]? = some x ∧ y = x ∧ p = pos + 1 := by
  rcases hc : input[pos]? with _ | c
  · simp only [consumeExpected, hc] at h
    cases h
  · simp only [consumeExpected, hc] at h
    by_cases hcx : c = x
    · rw [if_pos hcx] at h
      cases h
      subst hcx
      exact ⟨rfl, rfl, rfl⟩
    · rw [if_neg hcx] at h
      rcases hd : input[pos + 1]? with _ | d <;> simp only [hd] at h <;> cases h

theorem consumeExpected_err_inv {input : List Nat} {pos x : Nat} {e : BencodeError}
    (h : consumeExpected input pos x = .err e) : ∃ c, input[pos]? = some c ∧ c ≠ x := by
  rcases hc : input[pos]? with _ | c
  · simp only [consumeExpected, hc] at h
    cases h
  · simp only [consumeExpected, hc] at h
    by_cases hcx : c = x
    · rw [if_pos hcx] at h; cases h
    · exact ⟨c, rfl, hcx⟩

/-! ## ASCII strings are valid UTF-8 -/

theorem utf8Validate_cons_lt (b : Nat) (rest : List Nat) (i : Nat) (hb : b < 128) :
    utf8Validate (b :: rest) i = utf8Validate rest (i + 1) := by
  rw [utf8Validate.eq_def]
  split
  · rename_i heq
    simp at heq
  · rename_i heq
    injection heq with h1 h2
    subst h1
    subst h2
    rw [if_pos hb]

theorem utf8Validate_ascii : ∀ (l : List Nat) (i : Nat), (∀ c ∈ l, c < 128) →
    utf8Validate l i = none := by
  intro l
  induction l with
  | nil => intro i _; rfl
  | cons b rest ih =>
    intro i hall
    have hb : b < 128 := hall b (by simp)
    rw [utf8Validate_cons_lt b rest i hb]
    exact ih (i + 1) (fun c hc => hall c (by simp [hc]))

/-! ## The lexicographic key order -/

theorem lexLt_irrefl : ∀ a : List Nat, lexLt a a = false := by
  intro a
  induction a with
  | nil => rfl
  | cons x as ih =>
    simp only [lexLt]
    rw [if_neg (by omega : ¬ x < x)]
    simpa using ih

theorem lexLt_asymm : ∀ a b : List Nat, lexLt a b = true → lexLt b a = false := by
  intro a
  induction a with
  | nil =>
    intro b h
    cases b with
    | nil => cases h
    | cons y bs => rfl
  | cons x as ih =>
    intro b h
    cases b with
    | nil => cases h
    | cons y bs =>
      simp only [lexLt] at h ⊢
      by_cases hxy : x < y
      · rw [if_neg (by omega), if_neg (by omega)]
      · rw [if_neg hxy] at h
        by_cases hxy2 : x = y
        · rw [if_pos hxy2] at h
          rw [if_neg (by omega), if_pos (by omega)]
          exact ih bs h
        · rw [if_neg hxy2] at h
          cases h

theorem lexLt_total : ∀ a b : List Nat, lexLt a b = false → a ≠ b → lexLt b a = true := by
  intro a
  induction a with
  | nil =>
    intro b h hne
    cases b with
    | nil => exact absurd rfl hne
    | cons y bs => cases h
  | cons x as ih =>
    intro b h hne
    cases b with
    | nil => rfl
    | cons y bs =>
      simp only [lexLt] at h ⊢
      by_cases hxy : x < y
      · rw [if_pos hxy] at h
        cases h
      · rw [if_neg hxy] at h
        by_cases hxy2 : x = y
        · rw [if_pos hxy2] at h
          rw [if_neg (by omega), if_pos (by omega)]
          refine ih bs h ?_
          intro hab
          exact hne (by rw [hxy2, hab])
        · rw [if_pos (by omega)]

theorem lexLt_trans : ∀ a b c : List Nat, lexLt a b = true → lexLt b c = true →
    lexLt a c = true := by
  intro a
  induction a with
  | nil =>
    intro b c hab hbc
    cases b with
    | nil => cases hab
    | cons y bs =>
      cases c with
      | nil => cases hbc
      | cons z cs => rfl
  | cons x as ih =>
    intro b c hab hbc
    cases b with
    | nil => cases hab
    | cons y bs =>
      cases c with
      | nil => cases hbc
      | cons z cs =>
        simp only [lexLt] at hab hbc ⊢
        by_cases hxy : x < y
        · have hyz : y < z ∨ (y = z) := by
            by_cases h1 : y < z
            · exact Or.inl h1
            · rw [if_neg h1] at hbc
              by_cases h2 : y = z
              · exact Or.inr h2
              · rw [if_neg h2] at hbc; cases hbc
          rw [if_pos (by omega)]
        · rw [if_neg hxy] at hab
          by_cases hxy2 : x = y
          · rw [if_pos hxy2] at hab
            by_cases hyz : y < z
            · rw [if_pos (by omega)]
            · rw [if_neg hyz] at hbc
              by_cases hyz2 : y = z
              · rw [if_pos hyz2] at hbc
                rw [if_neg (by omega), if_pos (by omega)]
                exact ih bs cs hab hbc
              · rw [if_neg hyz2] at hbc; cases hbc
          · rw [if_neg hxy2] at hab; cases hab

/-! ## Sorted association lists and `BTreeMap::insert` -/

theorem keysSorted_tail {e : List Nat × Bencode} {l : List (List Nat × Bencode)}
    (h : keysSorted (e :: l) = true) : keysSorted l = true := by
  cases l with
  | nil => rfl
  | cons b t =>
    simp only [keysSorted, Bool.and_eq_true] at h
    exact h.2

theorem keysSorted_cons_of {a e : List Nat × Bencode} {t : List (List Nat × Bencode)}
    (h1 : lexLt a.1 e.1 = true) (h2 : keysSorted (e :: t) = true) :
    keysSorted (a :: e :: t) = true := by
  simp only [keysSorted, Bool.and_eq_true]
  exact ⟨h1, h2⟩

theorem keysSorted_cons_all {a : List Nat × Bencode} {l : List (List Nat × Bencode)}
    (h : keysSorted (a :: l) = true) : ∀ e ∈ l, lexLt a.1 e.1 = true := by
  induction l generalizing a with
  | nil => intro e he; cases he
  | cons b t ih =>
    intro e he
    have hab : lexLt a.1 b.1 = true := by
      simp only [keysSorted, Bool.and_eq_true] at h
      exact h.1
    rcases List.mem_cons.mp he with rfl | he'
    · exact hab
    · exact lexLt_trans a.1 b.1 e.1 hab (ih (keysSorted_tail h) e he')

theorem keysSorted_append_right {xs ys : List (List Nat × Bencode)}
    (h : keysSorted (xs ++ ys) = true) : keysSorted ys = true := by
  induction xs with
  | nil => exact h
  | cons x xs ih => exact ih (keysSorted_tail h)

theorem keysSorted_append_mem {xs ys : List (List Nat × Bencode)}
    (h : keysSorted (xs ++ ys) = true) :
    ∀ a ∈ xs, ∀ b ∈ ys, lexLt a.1 b.1 = true := by
  induction xs with
  | nil => intro a ha; cases ha
  | cons x xs ih =>
    intro a ha b hb
    rcases List.mem_cons.mp ha with rfl | ha'
    · exact keysSorted_cons_all h b (by simp [hb])
    · exact ih (keysSorted_tail h) a ha' b hb

theorem insertSorted_all_lt {m : List (List Nat × Bencode)} {k : List Nat} {v : Bencode}
    (hall : ∀ e ∈ m, lexLt e.1 k = true) : insertSorted m k v = m ++ [(k, v)] := by
  induction m with
  | nil => rfl
  | cons e rest ih =>
    have he : lexLt e.1 k = true := hall e (by simp)
    simp only [insertSorted]
    rw [if_neg (by rw [lexLt_asymm e.1 k he]; exact Bool.false_ne_true),
      if_neg (by intro hk; rw [hk] at he; rw [lexLt_irrefl] at he; cases he)]
    rw [ih (fun a ha => hall a (by simp [ha]))]
    rfl

theorem insertSorted_cons_shape : ∀ (m : List (List Nat × Bencode)) (k : List Nat) (v : Bencode),
    ∃ e t, insertSorted m k v = e :: t ∧
      (e.1 = k ∨ ∃ e0 t0, m = e0 :: t0 ∧ e.1 = e0.1) := by
  intro m k v
  cases m with
  | nil => exact ⟨(k, v), [], rfl, Or.inl rfl⟩
  | cons e0 rest =>
    simp only [insertSorted]
    by_cases h1 : lexLt k e0.1 = true
    · rw [if_pos h1]
      exact ⟨(k, v), e0 :: rest, rfl, Or.inl rfl⟩
    · rw [if_neg h1]
      by_cases h2 : k = e0.1
      · rw [if_pos h2]
        exact ⟨(k, v), rest, rfl, Or.inl rfl⟩
      · rw [if_neg h2]
        exact ⟨e0, insertSorted rest k v, rfl, Or.inr ⟨e0, rest, rfl, rfl⟩⟩

theorem keysSorted_insertSorted {m : List (List Nat × Bencode)} {k : List Nat} {v : Bencode}
    (h : keysSorted m = true) : keysSorted (insertSorted m k v) = true := by
  induction m with
  | nil => rfl
  | cons e0 rest ih =>
    simp only [insertSorted]
    by_cases h1 : lexLt k e0.1 = true
    · rw [if_pos h1]
      exact keysSorted_cons_of (a := (k, v)) h1 h
    · rw [if_neg h1]
      by_cases h2 : k = e0.1
      · rw [if_pos h2]
        cases rest with
        | nil => rfl
        | cons e1 t =>
          refine keysSorted_cons_of (a := (k, v)) ?_ (keysSorted_tail h)
          show lexLt k e1.1 = true
          rw [h2]
          simp only [keysSorted, Bool.and_eq_true] at h
          exact h.1
      · rw [if_neg h2]
        have hk0 : lexLt e0.1 k = true := by
          refine lexLt_total k e0.1 ?_ h2
          cases hx : lexLt k e0.1
          · rfl
          · exact absurd hx h1
        have hins := ih (keysSorted_tail h)
        rcases insertSorted_cons_shape rest k v with ⟨e, t, heq, hcase⟩
        rw [heq]
        rw [heq] at hins
        refine keysSorted_cons_of ?_ hins
        rcases hcase with hek | ⟨f0, t0, hrest, hef⟩
        · rw [hek]; exact hk0
        · rw [hef]
          rw [hrest] at h
          simp only [keysSorted, Bool.and_eq_true] at h
          exact h.1

theorem WFd_insertSorted {m : List (List Nat × Bencode)} {k : List Nat} {v : Bencode}
    (h : WFd m = true) (hk : k.length < 2 ^ 64) (hv : WFb v = true) :
    WFd (insertSorted m k v) = true := by
  induction m with
  | nil =>
    simp only [insertSorted, WFd, Bool.and_eq_true, decide_eq_true_eq]
    exact ⟨⟨hk, hv⟩, trivial⟩
  | cons e0 rest ih =>
    rcases e0 with ⟨k0, v0⟩
    simp only [WFd, Bool.and_eq_true, decide_eq_true_eq] at h
    simp only [insertSorted]
    by_cases h1 : lexLt k k0 = true
    · rw [if_pos h1]
      simp only [WFd, Bool.and_eq_true, decide_eq_true_eq]
      exact ⟨⟨hk, hv⟩, ⟨h.1, h.2⟩⟩
    · rw [if_neg h1]
      by_cases h2 : k = k0
      · rw [if_pos h2]
        simp only [WFd, Bool.and_eq_true, decide_eq_true_eq]
        exact ⟨⟨hk, hv⟩, h.2⟩
      · rw [if_neg h2]
        simp only [WFd, Bool.and_eq_true, decide_eq_true_eq]
        exact ⟨h.1, ih h.2⟩

theorem lookupKey_insertSorted : ∀ (m : List (List Nat × Bencode)) (k : List Nat) (v : Bencode)
    (q : List Nat), lookupKey (insertSorted m k v) q = if k = q then some v else lookupKey m q := by
  intro m k v
  induction m with
  | nil =>
    intro q
    simp only [insertSorted, lookupKey]
  | cons e0 rest ih =>
    intro q
    rcases e0 with ⟨k0, v0⟩
    simp only [insertSorted]
    by_cases h1 : lexLt k k0 = true
    · rw [if_pos h1]
      simp only [lookupKey]
    · rw [if_neg h1]
      by_cases h2 : k = k0
      · rw [if_pos h2]
        subst h2
        simp only [lookupKey]
        by_cases hq : k = q
        · simp only [if_pos hq]
        · simp only [if_neg hq]
      · rw [if_neg h2]
        simp only [lookupKey]
        by_cases hq : k0 = q
        · rw [if_pos hq, if_neg (by rw [← hq]; exact h2), if_pos hq]
        · rw [if_neg hq, if_neg hq, ih q]

theorem foldl_insEntry_sorted : ∀ (pairs acc : List (List Nat × Bencode)),
    keysSorted (acc ++ pairs) = true → List.foldl insEntry acc pairs = acc ++ pairs := by
  intro pairs
  induction pairs with
  | nil => intro acc _; simp
  | cons e rest ih =>
    intro acc h
    have hstep : insEntry acc e = acc ++ [e] := by
      unfold insEntry
      have := insertSorted_all_lt (m := acc) (k := e.1) (v := e.2)
        (fun a ha => keysSorted_append_mem h a ha e (by simp))
      simpa using this
    have hassoc : (acc ++ [e]) ++ rest = acc ++ e :: rest := by simp
    calc List.foldl insEntry acc (e :: rest)
        = List.foldl insEntry (insEntry acc e) rest := by rw [List.foldl_cons]
      _ = List.foldl insEntry (acc ++ [e]) rest := by rw [hstep]
      _ = (acc ++ [e]) ++ rest := ih (acc ++ [e]) (by rw [hassoc]; exact h)
      _ = acc ++ e :: rest := hassoc

/-! ## The last-occurrence semantics of repeated inserts -/

theorem foldl_last_gen (k : List Nat) :
    ∀ (pairs : List (List Nat × Bencode)) (i : Option Bencode),
      pairs.foldl (fun acc e => if e.1 = k then some e.2 else acc) i =
        (pairs.foldl (fun acc e => if e.1 = k then some e.2 else acc) none).elim i some := by
  intro pairs
  induction pairs with
  | nil => intro i; rfl
  | cons e rest ih =>
    intro i
    simp only [List.foldl_cons]
    rw [ih (if e.1 = k then some e.2 else i), ih (if e.1 = k then some e.2 else none)]
    rcases hs : rest.foldl (fun acc e => if e.1 = k then some e.2 else acc) none with _ | v
    · by_cases hek : e.1 = k
      · simp [hs, hek]
      · simp [hs, hek]
    · simp [hs]

theorem lastAssoc_cons (e : List Nat × Bencode) (rest : List (List Nat × Bencode))
    (k : List Nat) :
    lastAssoc (e :: rest) k =
      (lastAssoc rest k).elim (if e.1 = k then some e.2 else none) some := by
  unfold lastAssoc
  simp only [List.foldl_cons]
  rw [foldl_last_gen k rest (if e.1 = k then some e.2 else none)]

theorem lookupKey_foldl_insEntry :
    ∀ (pairs acc : List (List Nat × Bencode)) (k : List Nat),
      lookupKey (List.foldl insEntry acc pairs) k =
        (lastAssoc pairs k).elim (lookupKey acc k) some := by
  intro pairs
  induction pairs with
  | nil => intro acc k; rfl
  | cons e rest ih =>
    intro acc k
    simp only [List.foldl_cons]
    rw [ih (insEntry acc e) k, lastAssoc_cons]
    have hstep : lookupKey (insEntry acc e) k = if e.1 = k then some e.2 else lookupKey acc k := by
      unfold insEntry
      exact lookupKey_insertSorted acc e.1 e.2 k
    rcases hs : lastAssoc rest k with _ | v
    · by_cases hek : e.1 = k
      · simp [hs, hstep, hek]
      · simp [hs, hstep, hek]
    · simp [hs]

theorem lastAssoc_isSome {pairs : List (List Nat × Bencode)} {k : List Nat}
    (h : ∃ e ∈ pairs, e.1 = k) : (lastAssoc pairs k).isSome = true := by
  induction pairs with
  | nil => rcases h with ⟨e, he, _⟩; cases he
  | cons e rest ih =>
    rw [lastAssoc_cons]
    rcases hs : lastAssoc rest k with _ | v
    · rcases h with ⟨f, hf, hfk⟩
      rcases List.mem_cons.mp hf with rfl | hf'
      · simp [Option.elim, hfk]
      · have := ih ⟨f, hf', hfk⟩
        rw [hs] at this
        cases this
    · simp [Option.elim]

/-! ## Shape of serialized values -/

theorem serialize_cons (v : Bencode) :
    ∃ c t, Bencode.serialize v = c :: t ∧
      (c = 100 ∨ c = 108 ∨ c = 105 ∨ (48 ≤ c ∧ c ≤ 57)) := by
  cases v with
  | Integer n => exact ⟨105, _, rfl, by omega⟩
  | List l => exact ⟨108, _, rfl, by omega⟩
  | Dict d => exact ⟨100, _, rfl, by omega⟩
  | Bytes b =>
    rcases natDigits_cons b.length with ⟨d, t, hdt, h1, h2⟩
    refine ⟨d, t ++ 58 :: b, ?_, by omega⟩
    show serializeBytes b = _
    unfold serializeBytes
    rw [hdt]
    rfl

theorem serialize_head_ne_e (v : Bencode) {c : Nat} {t : List Nat}
    (h : Bencode.serialize v = c :: t) : c ≠ 101 := by
  rcases serialize_cons v with ⟨c', t', h', hc'⟩
  rw [h] at h'
  injection h' with h1 _
  omega

theorem serialize_length_ge (v : Bencode) : 2 ≤ (Bencode.serialize v).length := by
  cases v with
  | Integer n =>
    show 2 ≤ (105 :: (serializeInt n ++ [101])).length
    simp
  | List l =>
    show 2 ≤ (108 :: (serializeList l ++ [101])).length
    simp
  | Dict d =>
    show 2 ≤ (100 :: (serializeDict d ++ [101])).length
    simp
  | Bytes b =>
    show 2 ≤ (serializeBytes b).length
    unfold serializeBytes
    rcases natDigits_cons b.length with ⟨d, t, hdt, _, _⟩
    rw [hdt]
    simp
    omega

/-! ## The primitives on serialized (well-formed) input -/

theorem getElem?_succ_of_drop {input : List Nat} {pos c : Nat} {l : List Nat}
    (h : input.drop pos = c :: l) : input[pos + 1]? = l.head? := by
  have hd : input.drop (pos + 1) = l := by
    have := drop_advance (a := [c]) (b := l) (by simpa using h)
    simpa using this
  have := List.getElem?_drop input (pos + 1) 0
  rw [hd] at this
  rw [← this]
  cases l <;> simp

theorem digit_test_ne_58 {len : Nat} : ∀ x ∈ natDigits len, (x != 58) = true := by
  intro x hx
  have := natDigits_all_digit len x hx
  simp only [bne_iff_ne, ne_eq]
  omega

theorem parseLen_good {input : List Nat} {pos len : Nat} {rest : List Nat}
    (hlen : len < 2 ^ 64) (h : input.drop pos = natDigits len ++ 58 :: rest) :
    parseLen input pos = .ok len (pos + (natDigits len).length) := by
  rcases natDigits_cons len with ⟨d, t, hdt, hd1, hd2⟩
  have hfirst : input[pos]? = some d := getElem?_of_drop (by rw [h, hdt]; rfl)
  have hcw : consumeWhile (fun b => b != 58) input pos =
      (natDigits len, pos + (natDigits len).length) :=
    consumeWhile_eq_of h digit_test_ne_58 (by rfl)
  have hutf : utf8Validate (natDigits len) 0 = none :=
    utf8Validate_ascii (natDigits len) 0
      (fun c hc => by have := natDigits_all_digit len c hc; omega)
  simp only [parseLen, hfirst]
  rw [if_neg (by omega : ¬ d = 45)]
  simp only [hcw, hutf, parseUsize_natDigits len hlen]

theorem parseString_good {input : List Nat} {pos : Nat} {bs rest : List Nat}
    (hlen : bs.length < 2 ^ 64) (h : input.drop pos = serializeBytes bs ++ rest) :
    parseString input pos = .ok bs (pos + (serializeBytes bs).length) := by
  have h' : input.drop pos = natDigits bs.length ++ 58 :: (bs ++ rest) := by
    rw [h]
    show (natDigits bs.length ++ 58 :: bs) ++ rest = _
    simp
  have hl := parseLen_good hlen h'
  have hdrop1 : input.drop (pos + (natDigits bs.length).length) = 58 :: (bs ++ rest) :=
    drop_advance h'
  have h58 : input[pos + (natDigits bs.length).length]? = some 58 := getElem?_of_drop hdrop1
  have hdrop2 : input.drop (pos + (natDigits bs.length).length + 1) = bs ++ rest := by
    have := drop_advance (a := [58]) (b := bs ++ rest) (by simpa using hdrop1)
    simpa using this
  have hcn := consumeN_eq_of hdrop2
  simp only [parseString, hl, consumeExpected_ok h58, hcn]
  have : (serializeBytes bs).length = (natDigits bs.length).length + 1 + bs.length := by
    unfold serializeBytes
    simp only [List.length_append, List.length_cons]
    omega
  rw [this]
  simp only [PRes.ok.injEq, true_and]
  omega

theorem natDigits_zero : natDigits 0 = [48] := rfl

theorem natDigits_no_leading_zero (m : Nat) :
    ¬((natDigits m).length > 1 ∧ (natDigits m).headD 0 = 48) := by
  rintro ⟨h1, h2⟩
  rcases natDigits_cons m with ⟨d, t, hdt, hd1, hd2⟩
  have hd48 : d = 48 := by rw [hdt] at h2; simpa using h2
  have hm : m = 0 := natDigits_head?_eq_48 m (by rw [hdt, hd48]; rfl)
  rw [hm, natDigits_zero] at h1
  simp at h1

theorem digit_test_ne_101 {m : Nat} : ∀ x ∈ natDigits m, (x != 101) = true := by
  intro x hx
  have := natDigits_all_digit m x hx
  simp only [bne_iff_ne, ne_eq]
  omega

theorem parseInt_good {input : List Nat} {pos : Nat} {n : Int} {rest : List Nat}
    (hlo : -(2 ^ 63 - 1) ≤ n) (hhi : n ≤ 2 ^ 63 - 1)
    (h : input.drop pos = Bencode.serialize (.Integer n) ++ rest) :
    parseInt input pos = .ok (.Integer n) (pos + (Bencode.serialize (.Integer n)).length) := by
  have h' : input.drop pos = 105 :: (serializeInt n ++ 101 :: rest) := by
    rw [h]
    show (105 :: (serializeInt n ++ [101])) ++ rest = _
    simp
  have hi : input[pos]? = some 105 := getElem?_of_drop h'
  have hce1 : consumeExpected input pos 105 = .ok 105 (pos + 1) := consumeExpected_ok hi
  have hd1 : input.drop (pos + 1) = serializeInt n ++ 101 :: rest := by
    have := drop_advance (a := [105]) (b := serializeInt n ++ 101 :: rest) (by simpa using h')
    simpa using this
  have hslen : (Bencode.serialize (Bencode.Integer n)).length = (serializeInt n).length + 2 := by
    show (105 :: (serializeInt n ++ [101])).length = _
    simp
  by_cases hneg : n < 0
  · -- negative: the sign probe consumes `-`, digits of the magnitude follow
    have hsi : serializeInt n = 45 :: natDigits n.natAbs := by
      unfold serializeInt
      rw [if_pos hneg]
    have hd1' : input.drop (pos + 1) = 45 :: (natDigits n.natAbs ++ 101 :: rest) := by
      rw [hd1, hsi]
      rfl
    have hce2 : consumeExpected input (pos + 1) 45 = .ok 45 (pos + 1 + 1) :=
      consumeExpected_ok (getElem?_of_drop hd1')
    have hd2 : input.drop (pos + 1 + 1) = natDigits n.natAbs ++ 101 :: rest := by
      have := drop_advance (a := [45]) (b := natDigits n.natAbs ++ 101 :: rest)
        (by simpa using hd1')
      simpa using this
    have hcw : consumeWhile (fun c => c != 101) input (pos + 1 + 1) =
        (natDigits n.natAbs, pos + 1 + 1 + (natDigits n.natAbs).length) :=
      consumeWhile_eq_of hd2 digit_test_ne_101 (by rfl)
    have hA : n.natAbs ≤ 2 ^ 63 - 1 := by omega
    have hutf : utf8Validate (natDigits n.natAbs) 0 = none :=
      utf8Validate_ascii _ 0 (fun c hc => by have := natDigits_all_digit n.natAbs c hc; omega)
    have hp : parseI64 (natDigits n.natAbs) = some ((n.natAbs : Nat) : Int) :=
      parseI64_natDigits n.natAbs hA
    have hd3 : input.drop (pos + 1 + 1 + (natDigits n.natAbs).length) = 101 :: rest :=
      drop_advance hd2
    have hce3 : consumeExpected input (pos + 1 + 1 + (natDigits n.natAbs).length) 101 =
        .ok 101 (pos + 1 + 1 + (natDigits n.natAbs).length + 1) :=
      consumeExpected_ok (getElem?_of_drop hd3)
    have hval : ((n.natAbs : Nat) : Int) * (-1) = n := by omega
    simp only [parseInt, hce1, hce2, parseIntTail, hcw]
    rw [if_neg (natDigits_no_leading_zero n.natAbs)]
    rw [if_neg (by
      rintro ⟨-, h2, -⟩
      rcases natDigits_cons n.natAbs with ⟨d, t, hdt, hd48a, hd48b⟩
      have hd48 : d = 48 := by rw [hdt] at h2; simpa using h2
      have : n.natAbs = 0 := natDigits_head?_eq_48 _ (by rw [hdt, hd48]; rfl)
      omega)]
    simp only [hutf, hp, hce3]
    rw [if_neg (by
      rw [hval]
      rintro (hc | hc) <;> omega)]
    rw [hval, hslen, hsi]
    simp only [List.length_cons, PRes.ok.injEq, true_and]
    omega
  · -- non-negative: the sign probe fails (swallowed) and the digits follow
    have hsi : serializeInt n = natDigits n.toNat := by
      unfold serializeInt
      rw [if_neg hneg]
    rcases natDigits_cons n.toNat with ⟨d, t, hdt, hda, hdb⟩
    have hd1' : input.drop (pos + 1) = d :: (t ++ 101 :: rest) := by
      rw [hd1, hsi, hdt]
      rfl
    have hdnex : input[pos + 1]? = some d := getElem?_of_drop hd1'
    have hy : ∃ y, input[pos + 1 + 1]? = some y := by
      have hnx := getElem?_succ_of_drop hd1'
      cases t with
      | nil => exact ⟨101, by simpa using hnx⟩
      | cons t0 ts => exact ⟨t0, by simpa using hnx⟩
    rcases hy with ⟨y, hy⟩
    have hce2 := consumeExpected_mismatch hdnex (by omega : d ≠ 45) hy
    have hdigs : input.drop (pos + 1) = natDigits n.toNat ++ 101 :: rest := by
      rw [hd1, hsi]
    have hcw : consumeWhile (fun c => c != 101) input (pos + 1) =
        (natDigits n.toNat, pos + 1 + (natDigits n.toNat).length) :=
      consumeWhile_eq_of hdigs digit_test_ne_101 (by rfl)
    have hA : n.toNat ≤ 2 ^ 63 - 1 := by omega
    have hutf : utf8Validate (natDigits n.toNat) 0 = none :=
      utf8Validate_ascii _ 0 (fun c hc => by have := natDigits_all_digit n.toNat c hc; omega)
    have hp : parseI64 (natDigits n.toNat) = some ((n.toNat : Nat) : Int) :=
      parseI64_natDigits n.toNat hA
    have hd3 : input.drop (pos + 1 + (natDigits n.toNat).length) = 101 :: rest :=
      drop_advance hdigs
    have hce3 : consumeExpected input (pos + 1 + (natDigits n.toNat).length) 101 =
        .ok 101 (pos + 1 + (natDigits n.toNat).length + 1) :=
      consumeExpected_ok (getElem?_of_drop hd3)
    have hval : ((n.toNat : Nat) : Int) * 1 = n := by omega
    simp only [parseInt, hce1, hce2, parseIntTail, hcw]
    rw [if_neg (natDigits_no_leading_zero n.toNat)]
    rw [if_neg (by
      rintro ⟨-, -, hs⟩
      norm_num at hs)]
    simp only [hutf, hp, hce3]
    rw [if_neg (by
      rw [hval]
      rintro (hc | hc) <;> omega)]
    rw [hval, hslen, hsi]
    simp only [PRes.ok.injEq, true_and]
    omega

/-! ## Fuel lower bounds -/

theorem fuelFor_pos (v : Bencode) : 1 ≤ fuelFor v := by
  cases v <;> simp [fuelFor] <;> omega

theorem fuelL_pos (l : List Bencode) : 1 ≤ fuelL l := by
  cases l <;> simp [fuelL] <;> omega

theorem fuelD_pos (d : List (List Nat × Bencode)) : 1 ≤ fuelD d := by
  cases d with
  | nil => simp [fuelD]
  | cons e t =>
    rcases e with ⟨k, v⟩
    simp [fuelD]
    omega

/-! ## The recursive descent accepts every serialized well-formed value -/

theorem parse_good_all (input : List Nat) : ∀ fuel : Nat,
    (∀ v pos rest, WFb v = true → fuelFor v ≤ fuel →
      input.drop pos = Bencode.serialize v ++ rest →
      parseElement input fuel pos = .ok v (pos + (Bencode.serialize v).length)) ∧
    (∀ l pos rest, WFl l = true → 1 + fuelL l ≤ fuel →
      input.drop pos = 108 :: (serializeList l ++ 101 :: rest) →
      parseList input fuel pos = .ok (.List l) (pos + ((serializeList l).length + 2))) ∧
    (∀ l acc pos rest, WFl l = true → fuelL l ≤ fuel →
      input.drop pos = serializeList l ++ 101 :: rest →
      listLoop input fuel acc pos = .ok (.List (acc ++ l)) (pos + ((serializeList l).length + 1))) ∧
    (∀ es pos rest, WFd es = true → 1 + fuelD es ≤ fuel →
      input.drop pos = 100 :: (serializeDict es ++ 101 :: rest) →
      parseDict input fuel pos =
        .ok (.Dict (List.foldl insEntry [] es)) (pos + ((serializeDict es).length + 2))) ∧
    (∀ es acc pos rest, WFd es = true → fuelD es ≤ fuel →
      input.drop pos = serializeDict es ++ 101 :: rest →
      dictLoop input fuel acc pos =
        .ok (.Dict (List.foldl insEntry acc es)) (pos + ((serializeDict es).length + 1))) := by
  intro fuel
  induction fuel using Nat.strong_induction_on with
  | _ fuel ih =>
    refine ⟨?_, ?_, ?_, ?_, ?_⟩
    · -- parseElement
      intro v pos rest hwf hfuel hdrop
      have hf1 : 1 ≤ fuel := le_trans (fuelFor_pos v) hfuel
      cases fuel with
      | zero => omega
      | succ f =>
        cases v with
        | Bytes b =>
          have hlen : b.length < 2 ^ 64 := by
            simp only [WFb, decide_eq_true_eq] at hwf
            exact hwf
          rcases natDigits_cons b.length with ⟨d, t, hdt, hd1, hd2⟩
          have hdropB : input.drop pos = serializeBytes b ++ rest := hdrop
          have hfirst : input[pos]? = some d := getElem?_of_drop (by
            rw [hdropB]
            show (natDigits b.length ++ 58 :: b) ++ rest = _
            rw [hdt]
            rfl)
          simp only [parseElement, hfirst]
          rw [if_neg (by omega : ¬ d = 100), if_neg (by omega : ¬ d = 108),
            if_neg (by omega : ¬ d = 105), if_pos (by omega : 48 ≤ d ∧ d ≤ 57)]
          rw [parseString_good hlen hdropB]
          rfl
        | Integer n =>
          have hbounds : -(2 ^ 63 - 1) ≤ n ∧ n ≤ 2 ^ 63 - 1 := by
            simp only [WFb, decide_eq_true_eq] at hwf
            exact hwf
          have hfirst : input[pos]? = some 105 := getElem?_of_drop (by
            rw [hdrop]
            rfl)
          simp only [parseElement, hfirst]
          rw [if_pos trivial]
          exact parseInt_good hbounds.1 hbounds.2 hdrop
        | List l =>
          have hwf' : WFl l = true := hwf
          have hfirst : input[pos]? = some 108 := getElem?_of_drop (by
            rw [hdrop]
            rfl)
          have hdrop' : input.drop pos = 108 :: (serializeList l ++ 101 :: rest) := by
            rw [hdrop]
            show (108 :: (serializeList l ++ [101])) ++ rest = _
            simp
          have hfuel' : 1 + fuelL l ≤ f := by
            simp only [fuelFor] at hfuel
            omega
          have hgl := (ih f (by omega)).2.1 l pos rest hwf' hfuel' hdrop'
          simp only [parseElement, hfirst]
          rw [if_pos trivial, hgl]
          rw [if_neg (by omega : ¬ (108 : Nat) = 100)]
          have hlen : (Bencode.serialize (.List l)).length = (serializeList l).length + 2 := by
            show (108 :: (serializeList l ++ [101])).length = _
            simp
          rw [hlen]
        | Dict d =>
          have hparts : keysSorted d = true ∧ WFd d = true := by
            have : (keysSorted d && WFd d) = true := hwf
            simpa using this
          have hfirst : input[pos]? = some 100 := getElem?_of_drop (by
            rw [hdrop]
            rfl)
          have hdrop' : input.drop pos = 100 :: (serializeDict d ++ 101 :: rest) := by
            rw [hdrop]
            show (100 :: (serializeDict d ++ [101])) ++ rest = _
            simp
          have hfuel' : 1 + fuelD d ≤ f := by
            simp only [fuelFor] at hfuel
            omega
          have hgd := (ih f (by omega)).2.2.2.1 d pos rest hparts.2 hfuel' hdrop'
          simp only [parseElement, hfirst]
          rw [if_pos trivial, hgd]
          rw [foldl_insEntry_sorted d [] (by simpa using hparts.1)]
          have hlen : (Bencode.serialize (.Dict d)).length = (serializeDict d).length + 2 := by
            show (100 :: (serializeDict d ++ [101])).length = _
            simp
          rw [hlen]
          simp
    · -- parseList
      intro l pos rest hwf hfuel hdrop
      cases fuel with
      | zero => omega
      | succ f =>
        have hfirst : input[pos]? = some 108 := getElem?_of_drop hdrop
        have hce : consumeExpected input pos 108 = .ok 108 (pos + 1) := consumeExpected_ok hfirst
        have hdrop' : input.drop (pos + 1) = serializeList l ++ 101 :: rest := by
          have := drop_advance (a := [108]) (b := serializeList l ++ 101 :: rest)
            (by simpa using hdrop)
          simpa using this
        have hloop := (ih f (by omega)).2.2.1 l [] (pos + 1) rest hwf (by omega) hdrop'
        simp only [parseList, hce, hloop]
        simp only [List.nil_append, PRes.ok.injEq, true_and]
        omega
    · -- listLoop
      intro l acc pos rest hwf hfuel hdrop
      cases fuel with
      | zero =>
        have := fuelL_pos l
        omega
      | succ f =>
        cases l with
        | nil =>
          have hdrop' : input.drop pos = 101 :: rest := by
            rw [hdrop]
            rfl
          have hfirst : input[pos]? = some 101 := getElem?_of_drop hdrop'
          have hce : consumeExpected input pos 101 = .ok 101 (pos + 1) :=
            consumeExpected_ok hfirst
          simp only [listLoop, hfirst]
          rw [if_pos trivial]
          simp only [hce]
          simp only [List.append_nil, PRes.ok.injEq, true_and]
          show pos + 1 = pos + ((serializeList []).length + 1)
          rfl
        | cons x xs =>
          have hwfx : WFb x = true ∧ WFl xs = true := by
            have : (WFb x && WFl xs) = true := hwf
            simpa using this
          have hfx : fuelFor x ≤ f ∧ fuelL xs ≤ f := by
            simp only [fuelL] at hfuel
            omega
          have hdropx : input.drop pos = Bencode.serialize x ++
              (serializeList xs ++ 101 :: rest) := by
            rw [hdrop]
            show (Bencode.serialize x ++ serializeList xs) ++ 101 :: rest = _
            simp
          rcases serialize_cons x with ⟨c, t, hser, hc⟩
          have hfirst : input[pos]? = some c := getElem?_of_drop (by
            rw [hdropx, hser]
            rfl)
          have helem := (ih f (by omega)).1 x pos (serializeList xs ++ 101 :: rest)
            hwfx.1 hfx.1 hdropx
          have hdropxs : input.drop (pos + (Bencode.serialize x).length) =
              serializeList xs ++ 101 :: rest := drop_advance hdropx
          have hloop := (ih f (by omega)).2.2.1 xs (acc ++ [x])
            (pos + (Bencode.serialize x).length) rest hwfx.2 hfx.2 hdropxs
          simp only [listLoop, hfirst]
          rw [if_neg (by omega : ¬ c = 101)]
          simp only [helem, hloop]
          simp only [PRes.ok.injEq]
          refine ⟨by simp, ?_⟩
          show pos + (Bencode.serialize x).length + ((serializeList xs).length + 1) =
            pos + ((serializeList (x :: xs)).length + 1)
          have : (serializeList (x :: xs)).length =
              (Bencode.serialize x).length + (serializeList xs).length := by
            show (Bencode.serialize x ++ serializeList xs).length = _
            simp
          rw [this]
          omega
    · -- parseDict
      intro es pos rest hwf hfuel hdrop
      cases fuel with
      | zero => omega
      | succ f =>
        have hfirst : input[pos]? = some 100 := getElem?_of_drop hdrop
        have hce : consumeExpected input pos 100 = .ok 100 (pos + 1) := consumeExpected_ok hfirst
        have hdrop' : input.drop (pos + 1) = serializeDict es ++ 101 :: rest := by
          have := drop_advance (a := [100]) (b := serializeDict es ++ 101 :: rest)
            (by simpa using hdrop)
          simpa using this
        have hloop := (ih f (by omega)).2.2.2.2 es [] (pos + 1) rest hwf (by omega) hdrop'
        simp only [parseDict, hce, hloop]
        simp only [PRes.ok.injEq, true_and]
        omega
    · -- dictLoop
      intro es acc pos rest hwf hfuel hdrop
      cases fuel with
      | zero =>
        have := fuelD_pos es
        omega
      | succ f =>
        cases es with
        | nil =>
          have hdrop' : input.drop pos = 101 :: rest := by
            rw [hdrop]
            rfl
          have hfirst : input[pos]? = some 101 := getElem?_of_drop hdrop'
          have hce : consumeExpected input pos 101 = .ok 101 (pos + 1) :=
            consumeExpected_ok hfirst
          simp only [dictLoop, hfirst]
          rw [if_pos trivial]
          simp only [hce]
          simp only [List.foldl_nil, PRes.ok.injEq, true_and]
          show pos + 1 = pos + ((serializeDict []).length + 1)
          rfl
        | cons e es' =>
          rcases e with ⟨k, v⟩
          have hwfe : k.length < 2 ^ 64 ∧ WFb v = true ∧ WFd es' = true := by
            have : ((decide (k.length < 2 ^ 64) && WFb v) && WFd es') = true := hwf
            simp only [Bool.and_eq_true, decide_eq_true_eq] at this
            exact ⟨this.1.1, this.1.2, this.2⟩
          have hfe : fuelFor v ≤ f ∧ fuelD es' ≤ f := by
            simp only [fuelD] at hfuel
            omega
          have hdropk : input.drop pos = serializeBytes k ++
              (Bencode.serialize v ++ (serializeDict es' ++ 101 :: rest)) := by
            rw [hdrop]
            show (serializeBytes k ++ Bencode.serialize v ++ serializeDict es') ++
              101 :: rest = _
            simp
          rcases natDigits_cons k.length with ⟨d, t, hdt, hd1, hd2⟩
          have hfirst : input[pos]? = some d := getElem?_of_drop (by
            rw [hdropk]
            show (natDigits k.length ++ 58 :: k) ++ _ = _
            rw [hdt]
            rfl)
          have hstr := parseString_good hwfe.1 hdropk
          have hdropv : input.drop (pos + (serializeBytes k).length) =
              Bencode.serialize v ++ (serializeDict es' ++ 101 :: rest) := drop_advance hdropk
          have helem := (ih f (by omega)).1 v (pos + (serializeBytes k).length)
            (serializeDict es' ++ 101 :: rest) hwfe.2.1 hfe.1 hdropv
          have hdropes : input.drop (pos + (serializeBytes k).length +
              (Bencode.serialize v).length) = serializeDict es' ++ 101 :: rest :=
            drop_advance hdropv
          have hloop := (ih f (by omega)).2.2.2.2 es' (insertSorted acc k v)
            (pos + (serializeBytes k).length + (Bencode.serialize v).length) rest
            hwfe.2.2 hfe.2 hdropes
          simp only [dictLoop, hfirst]
          rw [if_neg (by omega : ¬ d = 101)]
          simp only [hstr, helem, hloop]
          simp only [PRes.ok.injEq]
          refine ⟨rfl, ?_⟩
          show pos + (serializeBytes k).length + (Bencode.serialize v).length +
              ((serializeDict es').length + 1) =
            pos + ((serializeDict ((k, v) :: es')).length + 1)
          have : (serializeDict ((k, v) :: es')).length = (serializeBytes k).length +
              (Bencode.serialize v).length + (serializeDict es').length := by
            show (serializeBytes k ++ Bencode.serialize v ++ serializeDict es').length = _
            simp only [List.length_append]
          rw [this]
          omega

/-! ## The fuel supplied by `Bencode.parse` is enough for serialized values -/

mutual
theorem fuelFor_le (v : Bencode) : fuelFor v + 2 ≤ 3 * (Bencode.serialize v).length := by
  cases v with
  | Bytes b =>
    have := serialize_length_ge (.Bytes b)
    show fuelFor (.Bytes b) + 2 ≤ _
    simp only [fuelFor]
    omega
  | Integer n =>
    have := serialize_length_ge (.Integer n)
    show fuelFor (.Integer n) + 2 ≤ _
    simp only [fuelFor]
    omega
  | List l =>
    have hl := fuelL_le l
    have hlen : (Bencode.serialize (.List l)).length = (serializeList l).length + 2 := by
      show (108 :: (serializeList l ++ [101])).length = _
      simp
    show fuelFor (.List l) + 2 ≤ _
    simp only [fuelFor]
    rw [hlen]
    omega
  | Dict d =>
    have hd := fuelD_le d
    have hlen : (Bencode.serialize (.Dict d)).length = (serializeDict d).length + 2 := by
      show (100 :: (serializeDict d ++ [101])).length = _
      simp
    show fuelFor (.Dict d) + 2 ≤ _
    simp only [fuelFor]
    rw [hlen]
    omega
  termination_by structural v

theorem fuelL_le (l : List Bencode) : fuelL l ≤ 3 * (serializeList l).length + 1 := by
  cases l with
  | nil => simp [fuelL]
  | cons x xs =>
    have hx := fuelFor_le x
    have hxs := fuelL_le xs
    have hlen : (serializeList (x :: xs)).length =
        (Bencode.serialize x).length + (serializeList xs).length := by
      show (Bencode.serialize x ++ serializeList xs).length = _
      simp
    show fuelL (x :: xs) ≤ _
    simp only [fuelL]
    rw [hlen]
    omega
  termination_by structural l

theorem fuelD_le (d : List (List Nat × Bencode)) : fuelD d ≤ 3 * (serializeDict d).length + 1 := by
  cases d with
  | nil => simp [fuelD]
  | cons e es =>
    rcases e with ⟨k, v⟩
    have hv := fuelFor_le v
    have hes := fuelD_le es
    have hlen : (serializeDict ((k, v) :: es)).length = (serializeBytes k).length +
        (Bencode.serialize v).length + (serializeDict es).length := by
      show (serializeBytes k ++ Bencode.serialize v ++ serializeDict es).length = _
      simp only [List.length_append]
    show fuelD ((k, v) :: es) ≤ _
    simp only [fuelD]
    rw [hlen]
    omega
  termination_by structural d
end

/-- Round trip at the entry point: parsing the serialization of any
well-formed value (with arbitrary trailing bytes) succeeds and returns
the value. -/
theorem parse_serialize_ok (v : Bencode) (hwf : WFb v = true) (extra : List Nat) :
    Bencode.parse (Bencode.serialize v ++ extra) = .ok v := by
  have hdrop : (Bencode.serialize v ++ extra).drop 0 = Bencode.serialize v ++ extra := rfl
  have hlen : (Bencode.serialize v).length ≤ (Bencode.serialize v ++ extra).length := by
    simp
  have hfuel : fuelFor v ≤ 3 * (Bencode.serialize v ++ extra).length + 3 := by
    have := fuelFor_le v
    omega
  have hgood := (parse_good_all (Bencode.serialize v ++ extra)
    (3 * (Bencode.serialize v ++ extra).length + 3)).1 v 0 extra hwf hfuel hdrop
  unfold Bencode.parse
  rw [hgood]

/-! ## Every decoded value is well-formed -/

theorem parseLen_ok_inv {input : List Nat} {pos len p : Nat}
    (h : parseLen input pos = .ok len p) : len < 2 ^ 64 := by
  rcases hc : input[pos]? with _ | c
  · simp only [parseLen, hc] at h
    cases h
  · simp only [parseLen, hc] at h
    split at h
    · cases h
    · rcases hu : utf8Validate ((consumeWhile (fun b => b != 58) input pos).1) 0 with _ | e
      · rw [hu] at h
        rcases hp : parseUsize ((consumeWhile (fun b => b != 58) input pos).1) with _ | L
        · rw [hp] at h
          cases h
        · rw [hp] at h
          cases h
          exact parseUsize_lt hp
      · rw [hu] at h
        cases h

theorem parseString_wf {input : List Nat} {pos : Nat} {bs : List Nat} {p : Nat}
    (h : parseString input pos = .ok bs p) : bs.length < 2 ^ 64 := by
  unfold parseString at h
  cases hpl : parseLen input pos with
  | ok len p1 =>
    simp only [hpl] at h
    cases hce : consumeExpected input p1 58 with
    | ok y q =>
      simp only [hce] at h
      have := consumeN_ok_inv h
      have hlen := parseLen_ok_inv hpl
      omega
    | err e => simp only [hce] at h; cases h
    | panic => simp only [hce] at h; cases h
    | nofuel => simp only [hce] at h; cases h
  | err e => simp only [hpl] at h; cases h
  | panic => simp only [hpl] at h; cases h
  | nofuel => simp only [hpl] at h; cases h

theorem consumeWhile_fst_head {test : Nat → Bool} {input : List Nat} {pos : Nat}
    (h : (consumeWhile test input pos).1 ≠ []) :
    (consumeWhile test input pos).1.head? = input[pos]? := by
  unfold consumeWhile at h ⊢
  rcases hd : input.drop pos with _ | ⟨c, l⟩
  · have hnone : input[pos]? = none := by
      have h0 := List.getElem?_drop input pos 0
      rw [hd] at h0
      simpa using h0.symm
    rw [hnone]
    rfl
  · rw [getElem?_of_drop hd]
    simp only [List.takeWhile_cons]
    cases htc : test c
    · rw [hd] at h
      simp [List.takeWhile_cons, htc] at h
    · simp

theorem parseIntTail_ok_inv {input : List Nat} {pos : Nat} {sign : Int} {p : Nat}
    {v : Bencode} {p' : Nat} (h : parseIntTail input pos sign p = .ok v p') :
    ∃ z int, v = .Integer z ∧ z = int * sign ∧
      parseI64 ((consumeWhile (fun c => c != 101) input p).1) = some int ∧
      -(2 ^ 63) ≤ z ∧ z ≤ 2 ^ 63 - 1 := by
  simp only [parseIntTail] at h
  split at h
  · cases h
  · split at h
    · cases h
    · rcases hu : utf8Validate ((consumeWhile (fun c => c != 101) input p).1) 0 with _ | e <;>
        rw [hu] at h
      · rcases hp : parseI64 ((consumeWhile (fun c => c != 101) input p).1) with _ | int <;>
          rw [hp] at h
        · cases h
        · cases hce : consumeExpected input ((consumeWhile (fun c => c != 101) input p).2) 101 with
          | ok y q =>
            simp only [hce] at h
            split at h
            · cases h
            · rename_i hrange
              cases h
              push_neg at hrange
              exact ⟨int * sign, int, rfl, rfl, rfl, by omega, by omega⟩
          | err e => simp only [hce] at h; cases h
          | panic => simp only [hce] at h; cases h
          | nofuel => simp only [hce] at h; cases h
      · cases h

theorem parseInt_wf {input : List Nat} {pos : Nat} {v : Bencode} {p' : Nat}
    (h : parseInt input pos = .ok v p') :
    ∃ z, v = .Integer z ∧ -(2 ^ 63 - 1) ≤ z ∧ z ≤ 2 ^ 63 - 1 := by
  unfold parseInt at h
  cases hce1 : consumeExpected input pos 105 with
  | ok y p1 =>
    simp only [hce1] at h
    cases hce2 : consumeExpected input p1 45 with
    | ok y2 p2 =>
      simp only [hce2] at h
      rcases parseIntTail_ok_inv h with ⟨z, int, hv, hz, hp, hlo, hhi⟩
      have hb := parseI64_bounds hp
      refine ⟨z, hv, ?_, hhi⟩
      have hzi : z = -int := by rw [hz]; ring
      omega
    | err e2 =>
      simp only [hce2] at h
      rcases parseIntTail_ok_inv h with ⟨z, int, hv, hz, hp, hlo, hhi⟩
      rcases consumeExpected_err_inv hce2 with ⟨c, hc, hc45⟩
      have hint : 0 ≤ int := by
        by_contra hneg
        push_neg at hneg
        rcases parseI64_neg_head hp hneg with ⟨restTok, htok⟩
        have hne : ((consumeWhile (fun c => c != 101) input p1).1) ≠ [] := by
          rw [htok]
          simp
        have hhead := consumeWhile_fst_head hne
        rw [htok, hc] at hhead
        simp only [List.head?_cons, Option.some.injEq] at hhead
        omega
      refine ⟨z, hv, ?_, hhi⟩
      have hzi : z = int := by rw [hz]; ring
      omega
    | panic => simp only [hce2] at h; cases h
    | nofuel => simp only [hce2] at h; cases h
  | err e => simp only [hce1] at h; cases h
  | panic => simp only [hce1] at h; cases h
  | nofuel => simp only [hce1] at h; cases h

theorem WFl_append {a b : List Bencode} (ha : WFl a = true) (hb : WFl b = true) :
    WFl (a ++ b) = true := by
  induction a with
  | nil => exact hb
  | cons x xs ih =>
    have : (WFb x && WFl xs) = true := ha
    simp only [Bool.and_eq_true] at this
    show (WFb x && WFl (xs ++ b)) = true
    simp only [Bool.and_eq_true]
    exact ⟨this.1, ih this.2⟩

theorem parse_wf_all (input : List Nat) : ∀ fuel : Nat,
    (∀ pos v p, parseElement input fuel pos = .ok v p → WFb v = true) ∧
    (∀ pos v p, parseList input fuel pos = .ok v p → WFb v = true) ∧
    (∀ acc pos v p, WFl acc = true → listLoop input fuel acc pos = .ok v p → WFb v = true) ∧
    (∀ pos v p, parseDict input fuel pos = .ok v p → WFb v = true) ∧
    (∀ m pos v p, keysSorted m = true → WFd m = true →
      dictLoop input fuel m pos = .ok v p → WFb v = true) := by
  intro fuel
  induction fuel using Nat.strong_induction_on with
  | _ fuel ih =>
    refine ⟨?_, ?_, ?_, ?_, ?_⟩
    · -- parseElement
      intro pos v p h
      cases fuel with
      | zero => simp only [parseElement] at h; cases h
      | succ f =>
        rcases hc : input[pos]? with _ | c
        · simp only [parseElement, hc] at h
          cases h
        · simp only [parseElement, hc] at h
          split at h
          · exact (ih f (by omega)).2.2.2.1 pos v p h
          · split at h
            · exact (ih f (by omega)).2.1 pos v p h
            · split at h
              · rcases parseInt_wf h with ⟨z, hv, hlo, hhi⟩
                rw [hv]
                simp only [WFb, decide_eq_true_eq]
                exact ⟨hlo, hhi⟩
              · split at h
                · cases hps : parseString input pos with
                  | ok bs p2 =>
                    rw [hps] at h
                    cases h
                    simp only [WFb, decide_eq_true_eq]
                    exact parseString_wf hps
                  | err e => rw [hps] at h; cases h
                  | panic => rw [hps] at h; cases h
                  | nofuel => rw [hps] at h; cases h
                · cases h
    · -- parseList
      intro pos v p h
      cases fuel with
      | zero => simp only [parseList] at h; cases h
      | succ f =>
        cases hce : consumeExpected input pos 108 with
        | ok y q =>
          simp only [parseList, hce] at h
          exact (ih f (by omega)).2.2.1 [] q v p rfl h
        | err e => simp only [parseList, hce] at h; cases h
        | panic => simp only [parseList, hce] at h; cases h
        | nofuel => simp only [parseList, hce] at h; cases h
    · -- listLoop
      intro acc pos v p hacc h
      cases fuel with
      | zero => simp only [listLoop] at h; cases h
      | succ f =>
        rcases hc : input[pos]? with _ | c
        · simp only [listLoop, hc] at h
          cases h
        · simp only [listLoop, hc] at h
          split at h
          · cases hce : consumeExpected input pos 101 with
            | ok y q =>
              rw [hce] at h
              cases h
              exact hacc
            | err e => rw [hce] at h; cases h
            | panic => rw [hce] at h; cases h
            | nofuel => rw [hce] at h; cases h
          · cases hpe : parseElement input f pos with
            | ok x p1 =>
              simp only [hpe] at h
              have hx : WFb x = true := (ih f (by omega)).1 pos x p1 hpe
              have hxl : WFl [x] = true := by
                show (WFb x && WFl []) = true
                rw [hx]
                rfl
              exact (ih f (by omega)).2.2.1 (acc ++ [x]) p1 v p (WFl_append hacc hxl) h
            | err e => simp only [hpe] at h; cases h
            | panic => simp only [hpe] at h; cases h
            | nofuel => simp only [hpe] at h; cases h
    · -- parseDict
      intro pos v p h
      cases fuel with
      | zero => simp only [parseDict] at h; cases h
      | succ f =>
        cases hce : consumeExpected input pos 100 with
        | ok y q =>
          simp only [parseDict, hce] at h
          exact (ih f (by omega)).2.2.2.2 [] q v p rfl rfl h
        | err e => simp only [parseDict, hce] at h; cases h
        | panic => simp only [parseDict, hce] at h; cases h
        | nofuel => simp only [parseDict, hce] at h; cases h
    · -- dictLoop
      intro m pos v p hsort hwfd h
      cases fuel with
      | zero => simp only [dictLoop] at h; cases h
      | succ f =>
        rcases hc : input[pos]? with _ | c
        · simp only [dictLoop, hc] at h
          cases h
        · simp only [dictLoop, hc] at h
          split at h
          · cases hce : consumeExpected input pos 101 with
            | ok y q =>
              rw [hce] at h
              cases h
              show (keysSorted m && WFd m) = true
              simp [hsort, hwfd]
            | err e => rw [hce] at h; cases h
            | panic => rw [hce] at h; cases h
            | nofuel => rw [hce] at h; cases h
          · cases hps : parseString input pos with
            | ok k p1 =>
              simp only [hps] at h
              cases hpe : parseElement input f p1 with
              | ok val p2 =>
                simp only [hpe] at h
                have hval : WFb val = true := (ih f (by omega)).1 p1 val p2 hpe
                exact (ih f (by omega)).2.2.2.2 (insertSorted m k val) p2 v p
                  (keysSorted_insertSorted hsort)
                  (WFd_insertSorted hwfd (parseString_wf hps) hval) h
              | err e => simp only [hpe] at h; cases h
              | panic => simp only [hpe] at h; cases h
              | nofuel => simp only [hpe] at h; cases h
            | err e => simp only [hps] at h; cases h
            | panic => simp only [hps] at h; cases h
            | nofuel => simp only [hps] at h; cases h

/-- Every value the public entry point returns is well-formed. -/
theorem parse_wf {input : List Nat} {v : Bencode} (h : Bencode.parse input = .ok v) :
    WFb v = true := by
  unfold Bencode.parse at h
  cases hpe : parseElement input (3 * input.length + 3) 0 with
  | ok w q =>
    simp only [hpe] at h
    cases h
    exact (parse_wf_all input (3 * input.length + 3)).1 0 _ q hpe
  | err e => simp only [hpe] at h; cases h
  | panic => simp only [hpe] at h; cases h
  | nofuel => simp only [hpe] at h; cases h

/-! ## The cursor never moves backwards -/

theorem consume_ok_pos {input : List Nat} {pos c p : Nat} (h : consume input pos = .ok c p) :
    p = pos + 1 := by
  unfold consume at h
  rcases hc : input[pos]? with _ | x <;> simp only [hc] at h
  · cases h
  · cases h
    rfl

theorem consumeWhile_snd (test : Nat → Bool) (input : List Nat) (pos : Nat) :
    (consumeWhile test input pos).2 = pos + (consumeWhile test input pos).1.length := rfl

theorem parseLen_ok_pos {input : List Nat} {pos len p : Nat}
    (h : parseLen input pos = .ok len p) : pos ≤ p := by
  rcases hc : input[pos]? with _ | c
  · simp only [parseLen, hc] at h
    cases h
  · simp only [parseLen, hc] at h
    split at h
    · cases h
    · rcases hu : utf8Validate ((consumeWhile (fun b => b != 58) input pos).1) 0 with _ | e <;>
        rw [hu] at h
      · rcases hp : parseUsize ((consumeWhile (fun b => b != 58) input pos).1) with _ | L <;>
          rw [hp] at h
        · cases h
        · cases h
          rw [consumeWhile_snd]
          omega
      · cases h

theorem parseString_ok_pos {input : List Nat} {pos : Nat} {bs : List Nat} {p : Nat}
    (h : parseString input pos = .ok bs p) : pos ≤ p := by
  unfold parseString at h
  cases hpl : parseLen input pos with
  | ok len p1 =>
    simp only [hpl] at h
    cases hce : consumeExpected input p1 58 with
    | ok y q =>
      simp only [hce] at h
      have h1 := parseLen_ok_pos hpl
      have h2 := consumeExpected_ok_inv hce
      have h3 := consumeN_ok_inv h
      omega
    | err e => simp only [hce] at h; cases h
    | panic => simp only [hce] at h; cases h
    | nofuel => simp only [hce] at h; cases h
  | err e => simp only [hpl] at h; cases h
  | panic => simp only [hpl] at h; cases h
  | nofuel => simp only [hpl] at h; cases h

theorem parseIntTail_ok_pos {input : List Nat} {pos : Nat} {sign : Int} {p : Nat}
    {v : Bencode} {p' : Nat} (h : parseIntTail input pos sign p = .ok v p') : p ≤ p' := by
  simp only [parseIntTail] at h
  split at h
  · cases h
  · split at h
    · cases h
    · rcases hu : utf8Validate ((consumeWhile (fun c => c != 101) input p).1) 0 with _ | e <;>
        rw [hu] at h
      · rcases hp : parseI64 ((consumeWhile (fun c => c != 101) input p).1) with _ | int <;>
          rw [hp] at h
        · cases h
        · cases hce : consumeExpected input ((consumeWhile (fun c => c != 101) input p).2) 101 with
          | ok y q =>
            simp only [hce] at h
            split at h
            · cases h
            · cases h
              have h1 := consumeExpected_ok_inv hce
              rw [consumeWhile_snd] at h1
              omega
          | err e => simp only [hce] at h; cases h
          | panic => simp only [hce] at h; cases h
          | nofuel => simp only [hce] at h; cases h
      · cases h

theorem parseInt_ok_pos {input : List Nat} {pos : Nat} {v : Bencode} {p' : Nat}
    (h : parseInt input pos = .ok v p') : pos ≤ p' := by
  unfold parseInt at h
  cases hce1 : consumeExpected input pos 105 with
  | ok y p1 =>
    simp only [hce1] at h
    have h1 := consumeExpected_ok_inv hce1
    cases hce2 : consumeExpected input p1 45 with
    | ok y2 p2 =>
      simp only [hce2] at h
      have h2 := consumeExpected_ok_inv hce2
      have h3 := parseIntTail_ok_pos h
      omega
    | err e2 =>
      simp only [hce2] at h
      have h3 := parseIntTail_ok_pos h
      omega
    | panic => simp only [hce2] at h; cases h
    | nofuel => simp only [hce2] at h; cases h
  | err e => simp only [hce1] at h; cases h
  | panic => simp only [hce1] at h; cases h
  | nofuel => simp only [hce1] at h; cases h

theorem parse_mono_all (input : List Nat) : ∀ fuel : Nat,
    (∀ pos v p, parseElement input fuel pos = .ok v p → pos ≤ p) ∧
    (∀ pos v p, parseList input fuel pos = .ok v p → pos ≤ p) ∧
    (∀ acc pos v p, listLoop input fuel acc pos = .ok v p → pos ≤ p) ∧
    (∀ pos v p, parseDict input fuel pos = .ok v p → pos ≤ p) ∧
    (∀ m pos v p, dictLoop input fuel m pos = .ok v p → pos ≤ p) := by
  intro fuel
  induction fuel using Nat.strong_induction_on with
  | _ fuel ih =>
    refine ⟨?_, ?_, ?_, ?_, ?_⟩
    · intro pos v p h
      cases fuel with
      | zero => simp only [parseElement] at h; cases h
      | succ f =>
        rcases hc : input[pos]? with _ | c
        · simp only [parseElement, hc] at h
          cases h
        · simp only [parseElement, hc] at h
          split at h
          · exact (ih f (by omega)).2.2.2.1 pos v p h
          · split at h
            · exact (ih f (by omega)).2.1 pos v p h
            · split at h
              · exact parseInt_ok_pos h
              · split at h
                · cases hps : parseString input pos with
                  | ok bs p2 =>
                    rw [hps] at h
                    cases h
                    exact parseString_ok_pos hps
                  | err e => rw [hps] at h; cases h
                  | panic => rw [hps] at h; cases h
                  | nofuel => rw [hps] at h; cases h
                · cases h
    · intro pos v p h
      cases fuel with
      | zero => simp only [parseList] at h; cases h
      | succ f =>
        cases hce : consumeExpected input pos 108 with
        | ok y q =>
          simp only [parseList, hce] at h
          have h1 := consumeExpected_ok_inv hce
          have h2 := (ih f (by omega)).2.2.1 [] q v p h
          omega
        | err e => simp only [parseList, hce] at h; cases h
        | panic => simp only [parseList, hce] at h; cases h
        | nofuel => simp only [parseList, hce] at h; cases h
    · intro acc pos v p h
      cases fuel with
      | zero => simp only [listLoop] at h; cases h
      | succ f =>
        rcases hc : input[pos]? with _ | c
        · simp only [listLoop, hc] at h
          cases h
        · simp only [listLoop, hc] at h
          split at h
          · cases hce : consumeExpected input pos 101 with
            | ok y q =>
              rw [hce] at h
              cases h
              have := consumeExpected_ok_inv hce
              omega
            | err e => rw [hce] at h; cases h
            | panic => rw [hce] at h; cases h
            | nofuel => rw [hce] at h; cases h
          · cases hpe : parseElement input f pos with
            | ok x p1 =>
              simp only [hpe] at h
              have h1 := (ih f (by omega)).1 pos x p1 hpe
              have h2 := (ih f (by omega)).2.2.1 (acc ++ [x]) p1 v p h
              omega
            | err e => simp only [hpe] at h; cases h
            | panic => simp only [hpe] at h; cases h
            | nofuel => simp only [hpe] at h; cases h
    · intro pos v p h
      cases fuel with
      | zero => simp only [parseDict] at h; cases h
      | succ f =>
        cases hce : consumeExpected input pos 100 with
        | ok y q =>
          simp only [parseDict, hce] at h
          have h1 := consumeExpected_ok_inv hce
          have h2 := (ih f (by omega)).2.2.2.2 [] q v p h
          omega
        | err e => simp only [parseDict, hce] at h; cases h
        | panic => simp only [parseDict, hce] at h; cases h
        | nofuel => simp only [parseDict, hce] at h; cases h
    · intro m pos v p h
      cases fuel with
      | zero => simp only [dictLoop] at h; cases h
      | succ f =>
        rcases hc : input[pos]? with _ | c
        · simp only [dictLoop, hc] at h
          cases h
        · simp only [dictLoop, hc] at h
          split at h
          · cases hce : consumeExpected input pos 101 with
            | ok y q =>
              rw [hce] at h
              cases h
              have := consumeExpected_ok_inv hce
              omega
            | err e => rw [hce] at h; cases h
            | panic => rw [hce] at h; cases h
            | nofuel => rw [hce] at h; cases h
          · cases hps : parseString input pos with
            | ok k p1 =>
              simp only [hps] at h
              cases hpe : parseElement input f p1 with
              | ok val p2 =>
                simp only [hpe] at h
                have h1 := parseString_ok_pos hps
                have h2 := (ih f (by omega)).1 p1 val p2 hpe
                have h3 := (ih f (by omega)).2.2.2.2 (insertSorted m k val) p2 v p h
                omega
              | err e => simp only [hpe] at h; cases h
              | panic => simp only [hpe] at h; cases h
              | nofuel => simp only [hpe] at h; cases h
            | err e => simp only [hps] at h; cases h
            | panic => simp only [hps] at h; cases h
            | nofuel => simp only [hps] at h; cases h

/-! ## Parsing an assembled dict input -/

theorem parse_dictInput (pairs : List (List Nat × Bencode)) (hwf : WFd pairs = true) :
    Bencode.parse (dictInput pairs) = .ok (.Dict (pairs.foldl insEntry [])) := by
  have hlen : (dictInput pairs).length = (serializeDict pairs).length + 2 := by
    show (100 :: serializeDict pairs ++ [101]).length = _
    simp
  have hF : 3 * (dictInput pairs).length + 3 = (3 * (dictInput pairs).length + 1) + 2 := rfl
  unfold Bencode.parse
  rw [hF]
  have hfirst : (dictInput pairs)[0]? = some 100 :=
    getElem?_of_drop (show (dictInput pairs).drop 0 = 100 :: (serializeDict pairs ++ [101])
      from rfl)
  simp only [parseElement, hfirst]
  rw [if_pos trivial]
  have hce : consumeExpected (dictInput pairs) 0 100 = .ok 100 1 := consumeExpected_ok hfirst
  simp only [parseDict, hce]
  have hdrop : (dictInput pairs).drop 1 = serializeDict pairs ++ 101 :: [] := by
    show serializeDict pairs ++ [101] = _
    rfl
  have hfuel : fuelD pairs ≤ 3 * (dictInput pairs).length + 1 := by
    have := fuelD_le pairs
    omega
  have hloop := (parse_good_all (dictInput pairs) (3 * (dictInput pairs).length + 1)).2.2.2.2
    pairs [] 1 [] hwf hfuel hdrop
  rw [hloop]

/-! ## Helper facts for the claims -/

theorem countKey_exists {pairs : List (List Nat × Bencode)} {k : List Nat}
    (h : 2 ≤ countKey pairs k) : ∃ e ∈ pairs, e.1 = k := by
  unfold countKey at h
  rcases hf : pairs.filter (fun e => e.1 = k) with _ | ⟨e, t⟩
  · rw [hf] at h
    simp at h
  · have he : e ∈ pairs.filter (fun e => e.1 = k) := by
      rw [hf]
      simp
    have hm := List.mem_filter.mp he
    exact ⟨e, hm.1, by simpa using hm.2⟩

/-! ## The claims -/

/-- Claim C1 (round trip): every `Value` that is the successful result of a
decode re-encodes with `serialize` and decodes again to the same value:
`parse(serialize(v)) = Ok(v)`. -/
theorem claim_c1_roundtrip : ∀ (source : List Nat) (v : Bencode),
    Bencode.parse source = .ok v → Bencode.parse (Bencode.serialize v) = .ok v := by
  intro s v h
  have hwf := parse_wf h
  have hr := parse_serialize_ok v hwf []
  rw [List.append_nil] at hr
  exact hr

/-- Witness for C1 at the concrete decode result of `b"i36e"`. -/
theorem claim_c1_roundtrip_witness :
    Bencode.parse (Bencode.serialize (.Integer 36)) = .ok (.Integer 36) :=
  claim_c1_roundtrip (strBytes "i36e") (.Integer 36) rfl

/-- Claim C2, evaluated at the failing inputs: reaching end-of-input where a
byte was expected does NOT yield an `Unexpected` error — the `unwrap` in
`Parser::next` panics.  The empty input and the input `b"l"` (whose list
loop reads past the end) both make `Bencode::parse` panic. -/
theorem claim_c2_eof_panics :
    Bencode.parse (strBytes "") = .panic ∧ Bencode.parse (strBytes "l") = .panic :=
  ⟨rfl, rfl⟩

/-- Claim C3 (canonical dict ordering): every dict a successful decode
returns iterates in strictly ascending byte-lexicographic key order (so
`serialize` emits keys in that order regardless of the input order), and
concretely `d4:spam3:dog3:cati36ee` decodes and re-serializes to
`d3:cati36e4:spam3:doge`. -/
theorem claim_c3_canonical_dict_order :
    (∀ (input : List Nat) (d : List (List Nat × Bencode)),
      Bencode.parse input = .ok (.Dict d) → keysSorted d = true) ∧
    Bencode.parse (strBytes "d4:spam3:dog3:cati36ee") =
      .ok (.Dict [(strBytes "cat", .Integer 36), (strBytes "spam", .Bytes (strBytes "dog"))]) ∧
    Bencode.serialize (.Dict [(strBytes "cat", .Integer 36),
      (strBytes "spam", .Bytes (strBytes "dog"))]) = strBytes "d3:cati36e4:spam3:doge" := by
  refine ⟨?_, rfl, rfl⟩
  intro input d h
  have hwf := parse_wf h
  have h2 : (keysSorted d && WFd d) = true := hwf
  simp only [Bool.and_eq_true] at h2
  exact h2.1

/-- Witness for C3's universally quantified part at the concrete decode. -/
theorem claim_c3_witness :
    keysSorted [(strBytes "cat", .Integer 36), (strBytes "spam", .Bytes (strBytes "dog"))] =
      true :=
  claim_c3_canonical_dict_order.1 (strBytes "d4:spam3:dog3:cati36ee")
    [(strBytes "cat", .Integer 36), (strBytes "spam", .Bytes (strBytes "dog"))] rfl

/-- Claim C4 (integer sign/zero rules): `i0934e` fails with `Unexpected`
(leading zero), `i-0e` fails with `Unexpected` (negative zero), and `i0e`
succeeds as `Integer(0)`. -/
theorem claim_c4_int_sign_zero_rules :
    Bencode.parse (strBytes "i0934e") =
      .err (.Unexpected "Leading 0 while parsing integer at index 0") ∧
    Bencode.parse (strBytes "i-0e") =
      .err (.Unexpected "Negative 0 while parsing integer at index 0") ∧
    Bencode.parse (strBytes "i0e") = .ok (.Integer 0) :=
  ⟨rfl, rfl, rfl⟩

/-- Counterexample to claim C5 as stated: decoding `-2:text` through the
public entry point `Bencode::parse` fails with `Unexpected` (the
`parse_element` dispatch rejects `-` before any length field is read), not
with `NegativeLen`. -/
theorem claim_c5_counterexample :
    Bencode.parse (strBytes "-2:text") =
      .err (.Unexpected "Unexpected value type at index 0") := rfl

/-- Claim C5 as amended: a length field beginning with `-` produces
`NegativeLen` where a byte string is actually parsed — `parse_string` on
`-2:text` directly (as the source's unit test does), or through the public
entry point when the byte string is a dict key. -/
theorem claim_c5_negative_len :
    parseString (strBytes "-2:text") 0 =
      .err (.NegativeLen "Negative string len at index 0") ∧
    Bencode.parse (strBytes "d-2:te") =
      .err (.NegativeLen "Negative string len at index 1") :=
  ⟨rfl, rfl⟩

/-- Counterexample to claim C6 as stated: the length token `1a` is not
valid UTF-8 *decimal* text (it is valid UTF-8 but not a number), and decode
of `1a:` panics (`str::parse().expect(…)`) instead of failing with
`Utf8Error`. -/
theorem claim_c6_counterexample :
    Bencode.parse (strBytes "1a:") = .panic ∧ utf8Validate (strBytes "1a") 0 = none :=
  ⟨rfl, rfl⟩

/-- Claim C6 as amended: whenever the length token (the bytes collected up
to `:`) is not valid UTF-8, `parse_len` fails with `Utf8Error`; and through
the public entry point a dict whose key's length token holds the invalid
byte `0xFF` decodes to exactly that error. -/
theorem claim_c6_invalid_utf8_len :
    (∀ (input : List Nat) (pos c : Nat) (e : Nat × Option Nat),
      input[pos]? = some c → c ≠ 45 →
      utf8Validate ((consumeWhile (fun b => b != 58) input pos).1) 0 = some e →
      ∃ msg, parseLen input pos = .err (.Utf8Error msg)) ∧
    Bencode.parse [100, 255, 58, 101] = .err (.Utf8Error
      "Non UTF8 encoded string length at index 2. invalid utf-8 sequence of 1 bytes from index 0") := by
  constructor
  · intro input pos c e hc hne hu
    simp only [parseLen, hc]
    rw [if_neg hne, hu]
    exact ⟨_, rfl⟩
  · rfl

/-- Witness for C6's amended universal part at the concrete input `[255, 58]`. -/
theorem claim_c6_witness : ∃ msg, parseLen [255, 58] 0 = .err (.Utf8Error msg) :=
  claim_c6_invalid_utf8_len.1 [255, 58] 0 255 (0, some 1) rfl (by decide) rfl

/-- Claim C7 (duplicate dict keys): a dict input assembled from any
well-formed entry sequence in which some key occurs at least twice decodes
successfully, and the resulting map sends that key to the value of its
last occurrence in input order (`lastAssoc`). -/
theorem claim_c7_duplicate_keys :
    ∀ (pairs : List (List Nat × Bencode)) (k : List Nat),
      WFd pairs = true → 2 ≤ countKey pairs k →
      Bencode.parse (dictInput pairs) = .ok (.Dict (pairs.foldl insEntry [])) ∧
      lookupKey (pairs.foldl insEntry []) k = lastAssoc pairs k ∧
      (lastAssoc pairs k).isSome = true := by
  intro pairs k hwf hcnt
  refine ⟨parse_dictInput pairs hwf, ?_, lastAssoc_isSome (countKey_exists hcnt)⟩
  have hl := lookupKey_foldl_insEntry pairs [] k
  rw [hl]
  cases hls : lastAssoc pairs k with
  | none => rfl
  | some v => rfl

/-- Witness for C7 at the concrete duplicate-key input
`d1:ai1e1:ai2ee` (the key `a` twice; the decode keeps `Integer 2`). -/
theorem claim_c7_witness :
    Bencode.parse (dictInput [(strBytes "a", .Integer 1), (strBytes "a", .Integer 2)]) =
      .ok (.Dict ([(strBytes "a", .Integer 1), (strBytes "a", .Integer 2)].foldl insEntry [])) ∧
    lookupKey ([(strBytes "a", .Integer 1), (strBytes "a", .Integer 2)].foldl insEntry [])
      (strBytes "a") = lastAssoc [(strBytes "a", .Integer 1), (strBytes "a", .Integer 2)]
      (strBytes "a") ∧
    (lastAssoc [(strBytes "a", .Integer 1), (strBytes "a", .Integer 2)]
      (strBytes "a")).isSome = true :=
  claim_c7_duplicate_keys [(strBytes "a", .Integer 1), (strBytes "a", .Integer 2)]
    (strBytes "a") (by decide) (by decide)

/-- Claim C8 (empty containers): `le` decodes to the empty list, `de` to
the empty dict, and `0:` to the zero-length byte string. -/
theorem claim_c8_empty_containers :
    Bencode.parse (strBytes "le") = .ok (.List []) ∧
    Bencode.parse (strBytes "de") = .ok (.Dict []) ∧
    Bencode.parse (strBytes "0:") = .ok (.Bytes []) :=
  ⟨rfl, rfl, rfl⟩

/-- Claim C9 (cursor monotonicity): on every input, each parser operation
that returns successfully leaves the position unchanged or strictly
increased — the cursor never rewinds. -/
theorem claim_c9_cursor_monotone : ∀ input : List Nat,
    (∀ pos c p, consume input pos = .ok c p → pos ≤ p) ∧
    (∀ (test : Nat → Bool) pos, pos ≤ (consumeWhile test input pos).2) ∧
    (∀ pos x y p, consumeExpected input pos x = .ok y p → pos ≤ p) ∧
    (∀ pos len p, parseLen input pos = .ok len p → pos ≤ p) ∧
    (∀ pos bs p, parseString input pos = .ok bs p → pos ≤ p) ∧
    (∀ pos v p, parseInt input pos = .ok v p → pos ≤ p) ∧
    (∀ fuel pos v p, parseElement input fuel pos = .ok v p → pos ≤ p) := by
  intro input
  refine ⟨?_, ?_, ?_, ?_, ?_, ?_, ?_⟩
  · intro pos c p h
    have := consume_ok_pos h
    omega
  · intro test pos
    rw [consumeWhile_snd]
    omega
  · intro pos x y p h
    have := consumeExpected_ok_inv h
    omega
  · intro pos len p h
    exact parseLen_ok_pos h
  · intro pos bs p h
    exact parseString_ok_pos h
  · intro pos v p h
    exact parseInt_ok_pos h
  · intro fuel pos v p h
    exact (parse_mono_all input fuel).1 pos v p h

/-- Witness for C9 at a concrete successful parse of `b"i3e"`. -/
theorem claim_c9_witness : (0 : Nat) ≤ 3 :=
  (claim_c9_cursor_monotone (strBytes "i3e")).2.2.2.2.2.2 12 0 (.Integer 3) 3 rfl

/-- Claim C10 (trailing bytes ignored): a byte sequence beginning with a
complete well-formed element — the serialization of any well-formed value —
decodes to that value no matter what bytes follow; concretely `i3ei4e`
decodes to `Integer(3)`. -/
theorem claim_c10_trailing_bytes :
    (∀ (v : Bencode) (extra : List Nat), WFb v = true →
      Bencode.parse (Bencode.serialize v ++ extra) = .ok v) ∧
    Bencode.parse (strBytes "i3ei4e") = .ok (.Integer 3) :=
  ⟨fun v extra h => parse_serialize_ok v h extra, rfl⟩

/-- Witness for C10 at `Integer 3` followed by the junk `i4e`. -/
theorem claim_c10_witness :
    Bencode.parse (Bencode.serialize (.Integer 3) ++ strBytes "i4e") = .ok (.Integer 3) :=
  claim_c10_trailing_bytes.1 (.Integer 3) (strBytes "i4e") rfl

/-! ## The fuel `Bencode.parse` supplies is sufficient on every input -/

theorem getElem?_some_lt {l : List Nat} {n c : Nat} (h : l[n]? = some c) : n < l.length := by
  by_contra hge
  rw [List.getElem?_eq_none (by omega)] at h
  cases h

theorem consumeExpected_ne_nofuel (input : List Nat) (pos x : Nat) :
    consumeExpected input pos x ≠ .nofuel := by
  unfold consumeExpected
  split
  · simp
  · split
    · simp
    · split <;> simp

theorem parseLen_ne_nofuel (input : List Nat) (pos : Nat) : parseLen input pos ≠ .nofuel := by
  simp only [parseLen]
  split
  · simp
  · split
    · simp
    · split
      · simp
      · split <;> simp

theorem consumeN_ne_nofuel (input : List Nat) : ∀ n pos, consumeN input pos n ≠ .nofuel := by
  intro n
  induction n with
  | zero => intro pos; simp [consumeN]
  | succ n ih =>
    intro pos
    show (match input[pos]? with
      | none => PRes.panic
      | some c =>
        match consumeN input (pos + 1) n with
        | .ok bs p => .ok (c :: bs) p
        | .err e => .err e
        | .panic => .panic
        | .nofuel => .nofuel) ≠ .nofuel
    split
    · simp
    · split
      · simp
      · simp
      · simp
      · rename_i heq
        exact absurd heq (ih (pos + 1))

theorem parseString_ne_nofuel (input : List Nat) (pos : Nat) :
    parseString input pos ≠ .nofuel := by
  unfold parseString
  split
  · split
    · exact consumeN_ne_nofuel input _ _
    · simp
    · simp
    · rename_i heq
      exact absurd heq (consumeExpected_ne_nofuel input _ 58)
  · simp
  · simp
  · rename_i heq
    exact absurd heq (parseLen_ne_nofuel input pos)

theorem parseIntTail_ne_nofuel (input : List Nat) (pos : Nat) (sign : Int) (p : Nat) :
    parseIntTail input pos sign p ≠ .nofuel := by
  simp only [parseIntTail]
  split
  · simp
  · split
    · simp
    · split
      · simp
      · split
        · simp
        · split
          · split <;> simp
          · simp
          · simp
          · rename_i heq
            exact absurd heq (consumeExpected_ne_nofuel input _ 101)

theorem parseInt_ne_nofuel (input : List Nat) (pos : Nat) : parseInt input pos ≠ .nofuel := by
  unfold parseInt
  split
  · split
    · exact parseIntTail_ne_nofuel input pos (-1) _
    · exact parseIntTail_ne_nofuel input pos 1 _
    · simp
    · rename_i heq
      exact absurd heq (consumeExpected_ne_nofuel input _ 45)
  · simp
  · simp
  · rename_i heq
    exact absurd heq (consumeExpected_ne_nofuel input pos 105)

theorem consumeWhile_le {test : Nat → Bool} {input : List Nat} {pos : Nat}
    (h : pos ≤ input.length) : (consumeWhile test input pos).2 ≤ input.length := by
  show pos + ((input.drop pos).takeWhile test).length ≤ _
  have h1 : ((input.drop pos).takeWhile test).length ≤ (input.drop pos).length :=
    (List.takeWhile_sublist test).length_le
  have h2 : (input.drop pos).length = input.length - pos := List.length_drop pos input
  omega

theorem parseUsize_ne_nil {ds : List Nat} {n : Nat} (h : parseUsize ds = some n) : ds ≠ [] := by
  intro hds
  rw [hds] at h
  cases h

theorem parseLen_pos_le {input : List Nat} {pos len p : Nat}
    (h : parseLen input pos = .ok len p) :
    pos + 1 ≤ p ∧ (pos ≤ input.length → p ≤ input.length) := by
  rcases hc : input[pos]? with _ | c
  · simp only [parseLen, hc] at h
    cases h
  · simp only [parseLen, hc] at h
    split at h
    · cases h
    · rcases hu : utf8Validate ((consumeWhile (fun b => b != 58) input pos).1) 0 with _ | e <;>
        rw [hu] at h
      · rcases hp : parseUsize ((consumeWhile (fun b => b != 58) input pos).1) with _ | L <;>
          rw [hp] at h
        · cases h
        · cases h
          have hne := parseUsize_ne_nil hp
          have hlen : 1 ≤ ((consumeWhile (fun b => b != 58) input pos).1).length := by
            rcases hl : (consumeWhile (fun b => b != 58) input pos).1 with _ | ⟨a, t⟩
            · exact absurd hl hne
            · simp
          constructor
          · rw [consumeWhile_snd]
            omega
          · intro hposL
            exact consumeWhile_le hposL
      · cases h

theorem consumeN_le {input : List Nat} : ∀ {n pos : Nat} {bs : List Nat} {p : Nat},
    consumeN input pos n = .ok bs p → pos ≤ input.length → p ≤ input.length := by
  intro n
  induction n with
  | zero =>
    intro pos bs p h hpos
    simp only [consumeN] at h
    cases h
    exact hpos
  | succ n ih =>
    intro pos bs p h hpos
    rcases hc : input[pos]? with _ | c
    · simp only [consumeN, hc] at h
      cases h
    · simp only [consumeN, hc] at h
      have hlt := getElem?_some_lt hc
      cases hr : consumeN input (pos + 1) n with
      | ok bs' p' =>
        rw [hr] at h
        cases h
        exact ih hr (by omega)
      | err e => rw [hr] at h; cases h
      | panic => rw [hr] at h; cases h
      | nofuel => rw [hr] at h; cases h

theorem parseString_pos_bounds {input : List Nat} {pos : Nat} {bs : List Nat} {p : Nat}
    (h : parseString input pos = .ok bs p) (hpos : pos ≤ input.length) :
    pos + 2 ≤ p ∧ p ≤ input.length := by
  unfold parseString at h
  cases hpl : parseLen input pos with
  | ok len p1 =>
    simp only [hpl] at h
    cases hce : consumeExpected input p1 58 with
    | ok y q =>
      simp only [hce] at h
      have h1 := parseLen_pos_le hpl
      have h2 := consumeExpected_ok_inv hce
      have h3 := getElem?_some_lt h2.1
      have h4 := consumeN_ok_inv h
      have h5 := consumeN_le h (by omega)
      omega
    | err e => simp only [hce] at h; cases h
    | panic => simp only [hce] at h; cases h
    | nofuel => simp only [hce] at h; cases h
  | err e => simp only [hpl] at h; cases h
  | panic => simp only [hpl] at h; cases h
  | nofuel => simp only [hpl] at h; cases h

theorem parseIntTail_pos_bounds {input : List Nat} {pos : Nat} {sign : Int} {p : Nat}
    {v : Bencode} {p' : Nat} (h : parseIntTail input pos sign p = .ok v p')
    (hpos : p ≤ input.length) : p + 1 ≤ p' ∧ p' ≤ input.length := by
  simp only [parseIntTail] at h
  split at h
  · cases h
  · split at h
    · cases h
    · rcases hu : utf8Validate ((consumeWhile (fun c => c != 101) input p).1) 0 with _ | e <;>
        rw [hu] at h
      · rcases hp : parseI64 ((consumeWhile (fun c => c != 101) input p).1) with _ | int <;>
          rw [hp] at h
        · cases h
        · cases hce : consumeExpected input ((consumeWhile (fun c => c != 101) input p).2) 101 with
          | ok y q =>
            simp only [hce] at h
            split at h
            · cases h
            · cases h
              have h1 := consumeExpected_ok_inv hce
              have h2 := getElem?_some_lt h1.1
              have h3 : p ≤ (consumeWhile (fun c => c != 101) input p).2 := by
                rw [consumeWhile_snd]
                omega
              omega
          | err e => simp only [hce] at h; cases h
          | panic => simp only [hce] at h; cases h
          | nofuel => simp only [hce] at h; cases h
      · cases h

theorem parseInt_pos_bounds {input : List Nat} {pos : Nat} {v : Bencode} {p' : Nat}
    (h : parseInt input pos = .ok v p') (hpos : pos ≤ input.length) :
    pos + 1 ≤ p' ∧ p' ≤ input.length := by
  unfold parseInt at h
  cases hce1 : consumeExpected input pos 105 with
  | ok y p1 =>
    simp only [hce1] at h
    have h1 := consumeExpected_ok_inv hce1
    have h1' := getElem?_some_lt h1.1
    cases hce2 : consumeExpected input p1 45 with
    | ok y2 p2 =>
      simp only [hce2] at h
      have h2 := consumeExpected_ok_inv hce2
      have h2' := getElem?_some_lt h2.1
      have h3 := parseIntTail_pos_bounds h (by omega)
      omega
    | err e2 =>
      simp only [hce2] at h
      have h3 := parseIntTail_pos_bounds h (by omega)
      omega
    | panic => simp only [hce2] at h; cases h
    | nofuel => simp only [hce2] at h; cases h
  | err e => simp only [hce1] at h; cases h
  | panic => simp only [hce1] at h; cases h
  | nofuel => simp only [hce1] at h; cases h

theorem parse_fuel_sufficient (input : List Nat) : ∀ fuel : Nat,
    (∀ pos, pos ≤ input.length → 3 * input.length + 3 ≤ fuel + 3 * pos →
      parseElement input fuel pos ≠ .nofuel ∧
      (∀ v p, parseElement input fuel pos = .ok v p → pos + 1 ≤ p ∧ p ≤ input.length)) ∧
    (∀ pos, pos ≤ input.length → 3 * input.length + 2 ≤ fuel + 3 * pos →
      parseList input fuel pos ≠ .nofuel ∧
      (∀ v p, parseList input fuel pos = .ok v p → pos + 1 ≤ p ∧ p ≤ input.length)) ∧
    (∀ acc pos, pos ≤ input.length → 3 * input.length + 4 ≤ fuel + 3 * pos →
      listLoop input fuel acc pos ≠ .nofuel ∧
      (∀ v p, listLoop input fuel acc pos = .ok v p → pos + 1 ≤ p ∧ p ≤ input.length)) ∧
    (∀ pos, pos ≤ input.length → 3 * input.length + 2 ≤ fuel + 3 * pos →
      parseDict input fuel pos ≠ .nofuel ∧
      (∀ v p, parseDict input fuel pos = .ok v p → pos + 1 ≤ p ∧ p ≤ input.length)) ∧
    (∀ m pos, pos ≤ input.length → 3 * input.length + 4 ≤ fuel + 3 * pos →
      dictLoop input fuel m pos ≠ .nofuel ∧
      (∀ v p, dictLoop input fuel m pos = .ok v p → pos + 1 ≤ p ∧ p ≤ input.length)) := by
  intro fuel
  induction fuel using Nat.strong_induction_on with
  | _ fuel ih =>
    refine ⟨?_, ?_, ?_, ?_, ?_⟩
    · -- parseElement
      intro pos hpos hfuel
      cases fuel with
      | zero => omega
      | succ f =>
        have ihf := ih f (by omega)
        rcases hc : input[pos]? with _ | c
        · constructor
          · simp only [parseElement, hc]
            simp
          · intro v p h
            simp only [parseElement, hc] at h
            cases h
        · have hlt := getElem?_some_lt hc
          constructor
          · simp only [parseElement, hc]
            split
            · exact (ihf.2.2.2.1 pos hpos (by omega)).1
            · split
              · exact (ihf.2.1 pos hpos (by omega)).1
              · split
                · exact parseInt_ne_nofuel input pos
                · split
                  · split
                    · simp
                    · simp
                    · simp
                    · rename_i heq
                      exact absurd heq (parseString_ne_nofuel input pos)
                  · simp
          · intro v p h
            simp only [parseElement, hc] at h
            split at h
            · exact (ihf.2.2.2.1 pos hpos (by omega)).2 v p h
            · split at h
              · exact (ihf.2.1 pos hpos (by omega)).2 v p h
              · split at h
                · exact parseInt_pos_bounds h hpos
                · split at h
                  · cases hps : parseString input pos with
                    | ok bs p2 =>
                      rw [hps] at h
                      cases h
                      have := parseString_pos_bounds hps hpos
                      omega
                    | err e => rw [hps] at h; cases h
                    | panic => rw [hps] at h; cases h
                    | nofuel => rw [hps] at h; cases h
                  · cases h
    · -- parseList
      intro pos hpos hfuel
      cases fuel with
      | zero => omega
      | succ f =>
        have ihf := ih f (by omega)
        cases hce : consumeExpected input pos 108 with
        | ok y q =>
          have h1 := consumeExpected_ok_inv hce
          have h1' := getElem?_some_lt h1.1
          have hloop := ihf.2.2.1 [] q (by omega) (by omega)
          constructor
          · simp only [parseList, hce]
            exact hloop.1
          · intro v p h
            simp only [parseList, hce] at h
            have := hloop.2 v p h
            omega
        | err e =>
          constructor
          · simp only [parseList, hce]
            simp
          · intro v p h
            simp only [parseList, hce] at h
            cases h
        | panic =>
          constructor
          · simp only [parseList, hce]
            simp
          · intro v p h
            simp only [parseList, hce] at h
            cases h
        | nofuel => exact absurd hce (consumeExpected_ne_nofuel input pos 108)
    · -- listLoop
      intro acc pos hpos hfuel
      cases fuel with
      | zero => omega
      | succ f =>
        have ihf := ih f (by omega)
        rcases hc : input[pos]? with _ | c
        · constructor
          · simp only [listLoop, hc]
            simp
          · intro v p h
            simp only [listLoop, hc] at h
            cases h
        · have hlt := getElem?_some_lt hc
          by_cases hc101 : c = 101
          · cases hce : consumeExpected input pos 101 with
            | ok y q =>
              have h1 := consumeExpected_ok_inv hce
              constructor
              · simp only [listLoop, hc]
                rw [if_pos hc101]
                simp only [hce]
                simp
              · intro v p h
                simp only [listLoop, hc] at h
                rw [if_pos hc101] at h
                simp only [hce] at h
                cases h
                omega
            | err e =>
              constructor
              · simp only [listLoop, hc]
                rw [if_pos hc101]
                simp only [hce]
                simp
              · intro v p h
                simp only [listLoop, hc] at h
                rw [if_pos hc101] at h
                simp only [hce] at h
                cases h
            | panic =>
              constructor
              · simp only [listLoop, hc]
                rw [if_pos hc101]
                simp only [hce]
                simp
              · intro v p h
                simp only [listLoop, hc] at h
                rw [if_pos hc101] at h
                simp only [hce] at h
                cases h
            | nofuel => exact absurd hce (consumeExpected_ne_nofuel input pos 101)
          · have helem := ihf.1 pos hpos (by omega)
            cases hpe : parseElement input f pos with
            | ok x p1 =>
              have hb := helem.2 x p1 hpe
              have hloop := ihf.2.2.1 (acc ++ [x]) p1 (by omega) (by omega)
              constructor
              · simp only [listLoop, hc]
                rw [if_neg hc101]
                simp only [hpe]
                exact hloop.1
              · intro v p h
                simp only [listLoop, hc] at h
                rw [if_neg hc101] at h
                simp only [hpe] at h
                have := hloop.2 v p h
                omega
            | err e =>
              constructor
              · simp only [listLoop, hc]
                rw [if_neg hc101]
                simp only [hpe]
                simp
              · intro v p h
                simp only [listLoop, hc] at h
                rw [if_neg hc101] at h
                simp only [hpe] at h
                cases h
            | panic =>
              constructor
              · simp only [listLoop, hc]
                rw [if_neg hc101]
                simp only [hpe]
                simp
              · intro v p h
                simp only [listLoop, hc] at h
                rw [if_neg hc101] at h
                simp only [hpe] at h
                cases h
            | nofuel => exact absurd hpe helem.1
    · -- parseDict
      intro pos hpos hfuel
      cases fuel with
      | zero => omega
      | succ f =>
        have ihf := ih f (by omega)
        cases hce : consumeExpected input pos 100 with
        | ok y q =>
          have h1 := consumeExpected_ok_inv hce
          have h1' := getElem?_some_lt h1.1
          have hloop := ihf.2.2.2.2 [] q (by omega) (by omega)
          constructor
          · simp only [parseDict, hce]
            exact hloop.1
          · intro v p h
            simp only [parseDict, hce] at h
            have := hloop.2 v p h
            omega
        | err e =>
          constructor
          · simp only [parseDict, hce]
            simp
          · intro v p h
            simp only [parseDict, hce] at h
            cases h
        | panic =>
          constructor
          · simp only [parseDict, hce]
            simp
          · intro v p h
            simp only [parseDict, hce] at h
            cases h
        | nofuel => exact absurd hce (consumeExpected_ne_nofuel input pos 100)
    · -- dictLoop
      intro m pos hpos hfuel
      cases fuel with
      | zero => omega
      | succ f =>
        have ihf := ih f (by omega)
        rcases hc : input[pos]? with _ | c
        · constructor
          · simp only [dictLoop, hc]
            simp
          · intro v p h
            simp only [dictLoop, hc] at h
            cases h
        · have hlt := getElem?_some_lt hc
          by_cases hc101 : c = 101
          · cases hce : consumeExpected input pos 101 with
            | ok y q =>
              have h1 := consumeExpected_ok_inv hce
              constructor
              · simp only [dictLoop, hc]
                rw [if_pos hc101]
                simp only [hce]
                simp
              · intro v p h
                simp only [dictLoop, hc] at h
                rw [if_pos hc101] at h
                simp only [hce] at h
                cases h
                omega
            | err e =>
              constructor
              · simp only [dictLoop, hc]
                rw [if_pos hc101]
                simp only [hce]
                simp
              · intro v p h
                simp only [dictLoop, hc] at h
                rw [if_pos hc101] at h
                simp only [hce] at h
                cases h
            | panic =>
              constructor
              · simp only [dictLoop, hc]
                rw [if_pos hc101]
                simp only [hce]
                simp
              · intro v p h
                simp only [dictLoop, hc] at h
                rw [if_pos hc101] at h
                simp only [hce] at h
                cases h
            | nofuel => exact absurd hce (consumeExpected_ne_nofuel input pos 101)
          · cases hps : parseString input pos with
            | ok k p1 =>
              have hkb := parseString_pos_bounds hps hpos
              have helem := ihf.1 p1 (by omega) (by omega)
              cases hpe : parseElement input f p1 with
              | ok x p2 =>
                have hb := helem.2 x p2 hpe
                have hloop := ihf.2.2.2.2 (insertSorted m k x) p2 (by omega) (by omega)
                constructor
                · simp only [dictLoop, hc]
                  rw [if_neg hc101]
                  simp only [hps, hpe]
                  exact hloop.1
                · intro v p h
                  simp only [dictLoop, hc] at h
                  rw [if_neg hc101] at h
                  simp only [hps, hpe] at h
                  have := hloop.2 v p h
                  omega
              | err e =>
                constructor
                · simp only [dictLoop, hc]
                  rw [if_neg hc101]
                  simp only [hps, hpe]
                  simp
                · intro v p h
                  simp only [dictLoop, hc] at h
                  rw [if_neg hc101] at h
                  simp only [hps, hpe] at h
                  cases h
              | panic =>
                constructor
                · simp only [dictLoop, hc]
                  rw [if_neg hc101]
                  simp only [hps, hpe]
                  simp
                · intro v p h
                  simp only [dictLoop, hc] at h
                  rw [if_neg hc101] at h
                  simp only [hps, hpe] at h
                  cases h
              | nofuel => exact absurd hpe helem.1
            | err e =>
              constructor
              · simp only [dictLoop, hc]
                rw [if_neg hc101]
                simp only [hps]
                simp
              · intro v p h
                simp only [dictLoop, hc] at h
                rw [if_neg hc101] at h
                simp only [hps] at h
                cases h
            | panic =>
              constructor
              · simp only [dictLoop, hc]
                rw [if_neg hc101]
                simp only [hps]
                simp
              · intro v p h
                simp only [dictLoop, hc] at h
                rw [if_neg hc101] at h
                simp only [hps] at h
                cases h
            | nofuel => exact absurd hps (parseString_ne_nofuel input pos)

/-- Theorem: `Bencode.parse` never exhausts its fuel: the `nofuel` outcome is
unreachable through the public entry point, on every input. -/
theorem parse_ne_nofuel (input : List Nat) : Bencode.parse input ≠ .nofuel := by
  unfold Bencode.parse
  have h := (parse_fuel_sufficient input (3 * input.length + 3)).1 0 (by omega) (by omega)
  cases hpe : parseElement input (3 * input.length + 3) 0 with
  | ok v p => simp
  | err e => simp
  | panic => simp
  | nofuel => exact absurd hpe h.1
